import Mathlib

/-!
Verification of the post-recognition structuring layer of the ultrasound
measurement-table extraction pipeline.

The Python sources are shallowly embedded here:
* strings are lists of characters (`Str`), floats are rationals;
* `TextAnalyzer.structure_table_data` (scripts/textAnalyzer.py): noise
  filtering, the stable sort by `y`, the chained line grouping with the
  15-pixel threshold, and the per-line sort by `x`;
* `TextAnalyzer.split_measurement`: the two anchored regular-expression
  patterns are implemented as deterministic matchers that reproduce the
  greedy-with-backtracking semantics of `re.match` on these specific
  patterns (each quantifier in the patterns ranges over a single-character
  class, so backtracking reduces to choosing split points of maximal runs,
  tried longest first);
* `TextAnalyzer.calculate_measurement_score`: `re.findall` over the two
  scoring patterns plus the substring bonuses;
* `ContentExtractor.organLabelIdentification`: the longest-first,
  delete-on-match keyword scan;
* `usImageArea` / `USRegionLocation.getAllAvailableRegions`
  (scripts/dicomHandler.py, scripts/dicomRegionLocation.py): the region
  geometry resolution with its exception-to-fallback behaviour.
-/

namespace CRIUS

/-- Strings are modelled as lists of characters. -/
abbrev Str := List Char

/-- Whitespace for Python `str.strip` and the regex class for whitespace
(space, tab, newline, carriage return, vertical tab, form feed). -/
def isSpc (c : Char) : Bool :=
  c == ' ' || c == '\t' || c == '\n' || c == '\r' || c == Char.ofNat 11 || c == Char.ofNat 12

/-- ASCII digits, the regex class for digits. -/
def isDig (c : Char) : Bool :=
  c.isDigit

/-- ASCII letters, the regex class [a-zA-Z]. -/
def isAlphaCh (c : Char) : Bool :=
  c.isAlpha

/-- Python `str.strip`: remove leading and trailing whitespace. -/
def stripL (s : Str) : Str :=
  ((s.dropWhile isSpc).reverse.dropWhile isSpc).reverse

/-- The standalone noise characters removed by `structure_table_data`
(`unwanted_chars` in scripts/textAnalyzer.py). -/
def unwanted_chars : List Char :=
  ['-', '_', '|', '/', '\\', '~', Char.ofNat 96, '^', '*', '+', '=']

/-- The standalone punctuation characters additionally filtered at the
element level in `structure_table_data`. -/
def punctuation_chars : List Char :=
  ['.', ',', ';', ':', '!', '?', '@', '#', '$', '%', '&', '(', ')', '[', ']',
   Char.ofNat 123, Char.ofNat 125]

/-- One OCR text element: recognised text, centroid position, confidence. -/
structure Fragment where
  text : Str
  x : ℤ
  y : ℤ
  confidence : ℚ
  deriving DecidableEq

/-- Element-level filter of `structure_table_data`: drop empty texts,
standalone unwanted characters, and standalone punctuation. -/
def keeps_element (f : Fragment) : Bool :=
  let t := stripL f.text
  !(t.isEmpty) &&
  !(t.length == 1 && unwanted_chars.contains (t.headD ' ')) &&
  !(t.length == 1 && punctuation_chars.contains (t.headD ' '))

/-- The noise-filtering pass of `structure_table_data`. -/
def filter_text_elements (l : List Fragment) : List Fragment :=
  l.filter keeps_element

/-- Comparison by `y`, the sort key of `filtered_elements.sort`. -/
def leY (a b : Fragment) : Prop :=
  a.y ≤ b.y

/-- Comparison by `x`, the sort key of `current_line.sort`. -/
def leX (a b : Fragment) : Prop :=
  a.x ≤ b.x

instance : DecidableRel leY :=
  fun a b => inferInstanceAs (Decidable (a.y ≤ b.y))

instance : DecidableRel leX :=
  fun a b => inferInstanceAs (Decidable (a.x ≤ b.x))

instance : IsTotal Fragment leY :=
  ⟨fun a b => le_total a.y b.y⟩

instance : IsTrans Fragment leY :=
  ⟨fun _ _ _ h1 h2 => le_trans h1 h2⟩

instance : IsTotal Fragment leX :=
  ⟨fun a b => le_total a.x b.x⟩

instance : IsTrans Fragment leX :=
  ⟨fun _ _ _ h1 h2 => le_trans h1 h2⟩

/-- Python `list.sort` is a stable sort; insertion sort as defined in
Mathlib is stable for the same comparator, hence computes the same list. -/
def sortX (l : List Fragment) : List Fragment :=
  l.insertionSort leX

/-- The `same_line_threshold` constant of `structure_table_data`.
Pixel coordinates are modelled as integers: the grouping logic only
subtracts, takes absolute values and compares against this constant, on
which exact integer arithmetic and the source's float arithmetic agree. -/
def same_line_threshold : ℤ :=
  15

/-- The grouping loop of `structure_table_data`: `cur` is the accumulated
current line, `lastY` the `y` of the most recently appended fragment.  A
fragment joins the current line exactly when `|y - lastY| < 15`; otherwise
the current line is closed (sorted ascending by `x`) and a new line starts.
The final accumulator is closed the same way. -/
def group_go : List Fragment → ℤ → List Fragment → List (List Fragment)
  | cur, _, [] => [sortX cur]
  | cur, lastY, e :: rest =>
    if |e.y - lastY| < same_line_threshold then
      group_go (cur ++ [e]) e.y rest
    else
      sortX cur :: group_go [e] e.y rest

/-- Group the (already `y`-sorted) fragments into lines. -/
def group_lines : List Fragment → List (List Fragment)
  | [] => []
  | e :: rest => group_go [e] e.y rest

/-- The row-reconstruction part of `structure_table_data`: filter noise,
stable-sort ascending by `y`, then group into lines. -/
def structure_table_lines (l : List Fragment) : List (List Fragment) :=
  group_lines ((filter_text_elements l).insertionSort leY)

/-! The measurement tokenizer, `TextAnalyzer.split_measurement`.

Pattern 1 over a word is digits, whitespace, label, separator, value:
digits then at least one space, then a label made of optional digits,
letters, optional digits, then a run of dots and whitespace, then the
value: digits with an optional fractional part, optional whitespace, and
the literal letters c m.  Pattern 2 omits the leading digits and spaces.
Matching is anchored at the start only: input after the value is ignored.

Every quantifier in both patterns governs a one-character class, so the
backtracking search of `re.match` is reproduced by taking maximal runs,
with the single genuine choice point, namely how many digits after the
label belong to the label and how many to the value, searched longest
first. -/

/-- Separator characters of the run between label and value
(dots and whitespace). -/
def isSepCh (c : Char) : Bool :=
  c == '.' || isSpc c

/-- Match the literal letters c m at the front, returning the rest. -/
def cmAfter : Str → Option Str
  | 'c' :: 'm' :: rest => some rest
  | _ => none

/-- Match the value group, digits with an optional fractional part then
optional whitespace then the letters c m, at the front of `s`.  Returns
the matched text and the rest.  The fractional branch is tried first
(greedy optional dot); if its continuation fails the engine falls back to
the branch without the fractional part, which can only succeed when no
dot follows the integer digits. -/
def matchValueCm (s : Str) : Option (Str × Str) :=
  let d := s.takeWhile isDig
  let r := s.dropWhile isDig
  if d.isEmpty then none
  else
    let fallback :=
      let sp := r.takeWhile isSpc
      match cmAfter (r.dropWhile isSpc) with
      | some rest => some ((d ++ sp) ++ ['c', 'm'], rest)
      | none => none
    match r with
    | '.' :: r2 =>
      let d2 := r2.takeWhile isDig
      if d2.isEmpty then fallback
      else
        let r3 := r2.dropWhile isDig
        let sp := r3.takeWhile isSpc
        match cmAfter (r3.dropWhile isSpc) with
        | some rest => some ((d ++ '.' :: (d2 ++ sp)) ++ ['c', 'm'], rest)
        | none => fallback
    | _ => fallback

/-- All ways to split the digit run `d` (followed by `r`) into a part kept
by the label and a part left for the value, shortest label part first. -/
def splitsAsc : Str → Str → List (Str × Str)
  | [], r => [([], r)]
  | c :: d, r => ([], c :: (d ++ r)) :: (splitsAsc d r).map (fun p => (c :: p.1, p.2))

/-- The same splits, longest label part first: the greedy order in which
the regex engine tries them. -/
def splitsDesc (d r : Str) : List (Str × Str) :=
  (splitsAsc d r).reverse

/-- Match label, separator run, and value at the front of `s`: optional
digits, at least one letter, then a digit run split between the end of the
label and the start of the value (longest-for-the-label first), a run of
dots and whitespace, and the value group.  Returns label, value, rest. -/
def matchLabelValue (s : Str) : Option (Str × Str × Str) :=
  let dpre := s.takeWhile isDig
  let r1 := s.dropWhile isDig
  let letters := r1.takeWhile isAlphaCh
  if letters.isEmpty then none
  else
    let r2 := r1.dropWhile isAlphaCh
    let dtail := r2.takeWhile isDig
    let rrest := r2.dropWhile isDig
    (splitsDesc dtail rrest).findSome? (fun p =>
      match matchValueCm (p.2.dropWhile isSepCh) with
      | some (v, rest) => some (dpre ++ (letters ++ p.1), v, rest)
      | none => none)

/-- Pattern 1 of `split_measurement`: leading digits, at least one space,
then label, separator, value.  Returns the three captured groups. -/
def matchPattern1 (s : Str) : Option (List Str) :=
  let d1 := s.takeWhile isDig
  if d1.isEmpty then none
  else
    let r1 := s.dropWhile isDig
    let ws := r1.takeWhile isSpc
    if ws.isEmpty then none
    else
      match matchLabelValue (r1.dropWhile isSpc) with
      | some (a, v, _) => some [d1, a, v]
      | none => none

/-- Pattern 2 of `split_measurement`: label, separator, value.  Returns
the two captured groups. -/
def matchPattern2 (s : Str) : Option (List Str) :=
  match matchLabelValue s with
  | some (a, v, _) => some [a, v]
  | none => none

/-- `TextAnalyzer.split_measurement`: try pattern 1, then pattern 2, first
match wins; `none` when neither matches. -/
def split_measurement (s : Str) : Option (List Str) :=
  match matchPattern1 s with
  | some ps => some ps
  | none => matchPattern2 s

/-- The word-level step of `structure_table_data`: strip, drop empty and
unwanted one-character words, otherwise the split parts or the word. -/
def process_word (w : Str) : List Str :=
  let t := stripL w
  if t.isEmpty || (t.length == 1 && unwanted_chars.contains (t.headD ' ')) then []
  else
    match split_measurement t with
    | some ps => ps
    | none => [t]

/-- Join with single spaces, as Python `" ".join`. -/
def joinSp : List Str → Str
  | [] => []
  | [t] => t
  | t :: ts => t ++ ' ' :: joinSp ts

/-- The per-line value string produced by `structure_table_data`: the
word-level tokens of the line, each stripped, joined by single spaces. -/
def process_line (line : List Str) : Str :=
  joinSp (((line.map process_word).flatten).map stripL)

/-! The table-candidate scorer, `TextAnalyzer.calculate_measurement_score`.

The score over the concatenation of the lowercased fragment texts (each
followed by one space) is the number of `re.findall` matches of the
number-with-unit pattern, plus the number of matches of the whole-word
key-term pattern, plus twice the number of non-overlapping occurrences of
the substring c m, plus twice those of the substring v o l. -/

/-- Python `str.lower`, character by character. -/
def lowerS (s : Str) : Str :=
  s.map Char.toLower

/-- Word characters for the regex word-boundary test. -/
def isWordCh (c : Char) : Bool :=
  c.isAlphanum || c == '_'

/-- The concatenated OCR text: each fragment text lowercased, one space
appended after each (`all_text += text.lower() + " "`). -/
def all_text_of (texts : List Str) : Str :=
  (texts.map (fun t => lowerS t ++ [' '])).flatten

/-- The unit alternation of the first scoring pattern: the literal m m,
or m l, or c m with a greedy optional caret-3 or 3.  Returns the
consumed unit text and the rest. -/
def unitAtL : Str → Option (Str × Str)
  | [] => none
  | c :: t1 =>
    if c = 'm' then
      match t1 with
      | [] => none
      | c1 :: t2 => if c1 = 'm' ∨ c1 = 'l' then some ([c, c1], t2) else none
    else if c = 'c' then
      match t1 with
      | [] => none
      | c1 :: t2 =>
        if c1 = 'm' then
          match t2 with
          | [] => some ([c, c1], t2)
          | c2 :: t3 =>
            if c2 = '^' then
              match t3 with
              | [] => some ([c, c1], t2)
              | c3 :: t4 => if c3 = '3' then some ([c, c1, c2, c3], t4) else some ([c, c1], t2)
            else if c2 = '3' then some ([c, c1, c2], t3)
            else some ([c, c1], t2)
        else none
    else none

/-- Match of the number-with-unit pattern at the front of `s`: digits
with an optional fractional part, optional whitespace, a unit.  The
maximal digit and whitespace runs are forced, so the greedy match is
deterministic.  Returns the consumed text and the rest. -/
def matchP1AtL (s : Str) : Option (Str × Str) :=
  let d1 := s.takeWhile isDig
  let r1 := s.dropWhile isDig
  let noDot : Option (Str × Str) :=
    if d1.isEmpty then none
    else
      let sp := r1.takeWhile isSpc
      match unitAtL (r1.dropWhile isSpc) with
      | some (un, rest) => some (d1 ++ (sp ++ un), rest)
      | none => none
  match r1 with
  | c0 :: r2 =>
    if c0 = '.' then
      let d2 := r2.takeWhile isDig
      if d2.isEmpty then none
      else
        let r3 := r2.dropWhile isDig
        let sp := r3.takeWhile isSpc
        match unitAtL (r3.dropWhile isSpc) with
        | some (un, rest) => some (d1 ++ c0 :: (d2 ++ (sp ++ un)), rest)
        | none => none
    else noDot
  | [] => noDot

/-- Match length of the number-with-unit pattern at the front of `s`. -/
def matchP1At (s : Str) : Option Nat :=
  (matchP1AtL s).map (fun p => p.1.length)

/-- The key-term alternatives of the second scoring pattern, in the order
the regex engine tries them. -/
def p2Alts : List Str :=
  [['c', 'm'], ['v', 'o', 'l'], ['d', '1'], ['d', '2'], ['d'], ['l'], ['l', '1'], ['l', '2']]

/-- Whether an optional character is a word character (`none` is the
absent character before the start of the text). -/
def isWordO : Option Char → Bool
  | none => false
  | some c => isWordCh c

/-- Match length of the whole-word key-term pattern at the front of `s`
given the previous character `prev`: the left word boundary requires a
non-word previous character (every alternative starts with a word
character), and each alternative also requires a non-word character, or
the end of text, after it. -/
def matchP2At (prev : Option Char) (s : Str) : Option Nat :=
  if isWordO prev then none
  else
    p2Alts.findSome? (fun alt =>
      if alt.isPrefixOf s && !(isWordO (s.drop alt.length).head?) then some alt.length
      else none)

/-- The `re.findall` scan: at each position try the matcher (which may
consult the previous character for word boundaries); on a match advance
past it and count it, otherwise advance one character.  The fuel is the
length of the scanned text, so it never runs out. -/
def scanCt (f : Option Char → Str → Option Nat) : Nat → Option Char → Str → Nat
  | 0, _, _ => 0
  | _ + 1, _, [] => 0
  | fuel + 1, prev, c :: rest =>
    match f prev (c :: rest) with
    | some n =>
      1 + scanCt f fuel (((c :: rest).take (max n 1)).getLast?) ((c :: rest).drop (max n 1))
    | none => scanCt f fuel (some c) rest

/-- Number of matches of the number-with-unit pattern in `s`. -/
def countP1 (s : Str) : Nat :=
  scanCt (fun _ t => matchP1At t) s.length none s

/-- Number of matches of the whole-word key-term pattern in `s`. -/
def countP2 (s : Str) : Nat :=
  scanCt matchP2At s.length none s

/-- Python `str.count`: non-overlapping occurrences of `pat`, scanning
left to right. -/
def countSub (pat s : Str) : Nat :=
  scanCt (fun _ t => if pat.isPrefixOf t then some pat.length else none) s.length none s

/-- `TextAnalyzer.calculate_measurement_score` over the fragment texts of
a candidate region. -/
def calculate_measurement_score (texts : List Str) : Nat :=
  let t := all_text_of texts
  countP1 t + countP2 t + 2 * countSub ['c', 'm'] t + 2 * countSub ['v', 'o', 'l'] t

/-- The acceptance threshold of
`UltrasoundTableDetector.detect_measurement_table`:
a best candidate is accepted only when its score is at least 4. -/
def meets_threshold (s : Nat) : Prop :=
  4 ≤ s

instance (s : Nat) : Decidable (meets_threshold s) :=
  inferInstanceAs (Decidable (4 ≤ s))

/-! The organ keyword matcher, `ContentExtractor.organLabelIdentification`. -/

/-- The fixed keyword catalogue, in source order. -/
def organ_keywords : List Str :=
  (["right kidney", "rt kidney", "lt kidney", "LT KIDNEY", "left kidney", "kidney",
    "renal", "nephron", "ureter", "bladder", "rt ovary", "RT OVARY", "lt ovary",
    "uterus", "subscap ten", "breast", "rt breast", "lt breast",
    "rt ax", "lt ax", "transplant kidney"]).map String.toList

/-- The catalogue sorted by length, descending, stable on ties
(`sorted(keywords, key=len, reverse=True)`). -/
def keywords_sorted : List Str :=
  organ_keywords.insertionSort (fun a b => b.length ≤ a.length)

/-- Split `s` around the first occurrence of `pat`: `some (b, a)` with
`s = b ++ pat ++ a` and `b` shortest, `none` when `pat` does not occur.
Models both the Python `in` test and `str.replace(pat, "", 1)`. -/
def splitFirstOcc (pat : Str) : Str → Option (Str × Str)
  | [] => if pat.isEmpty then some ([], []) else none
  | c :: s =>
    if pat.isPrefixOf (c :: s) then some ([], (c :: s).drop pat.length)
    else (splitFirstOcc pat s).map (fun p => (c :: p.1, p.2))

/-- The keyword loop: for each keyword in order, if its lowercase form
occurs in the remaining text, record it and delete that first occurrence
before continuing.  Returns the found keywords and the final remainder. -/
def matchLoop : List Str → Str → List Str × Str
  | [], rem => ([], rem)
  | kw :: kws, rem =>
    match splitFirstOcc (lowerS kw) rem with
    | some (b, a) =>
      let r := matchLoop kws (b ++ a)
      (kw :: r.1, r.2)
    | none => matchLoop kws rem

/-- `ContentExtractor.organLabelIdentification` over the recognised text
lines of the full image: concatenate the lowercased texts (the method
lowercases once more before the scan) and run the keyword loop. -/
def organLabelIdentification (texts : List Str) : List Str :=
  (matchLoop keywords_sorted (lowerS (all_text_of texts))).1

/-! Region geometry: `USRegionLocation.getAllAvailableRegions` and
`usImageArea`. -/

/-- One device-reported ultrasound region: each of the four boundary
fields may be absent from the DICOM item. -/
structure USRegion where
  x0 : Option Int
  y0 : Option Int
  x1 : Option Int
  y1 : Option Int
  deriving DecidableEq

/-- `getAllAvailableRegions`: walk the region sequence and append each
present boundary field to its coordinate list; absent fields are skipped
with only a warning, so the four lists may have different lengths. -/
def getAllAvailableRegions (rs : List USRegion) :
    List Int × List Int × List Int × List Int :=
  (rs.filterMap (·.x0), rs.filterMap (·.y0), rs.filterMap (·.x1), rs.filterMap (·.y1))

/-- The coordinate selection of `usImageArea`: when at least two minimum-x
entries exist, combine the first two regions' bounds; otherwise use index
0 of every list.  A missing index corresponds to the Python `IndexError`
and yields `none`. -/
def usCropBounds (x0s y0s x1s y1s : List Int) : Option (Int × Int × Int × Int) :=
  if 2 ≤ x0s.length then
    match x0s[0]?, x0s[1]?, y0s[0]?, y0s[1]?, x1s[0]?, x1s[1]?, y1s[0]?, y1s[1]? with
    | some a0, some a1, some b0, some b1, some c0, some c1, some d0, some d1 =>
      some (min a0 a1, min b0 b1, max c0 c1, max d0 d1)
    | _, _, _, _, _, _, _, _ => none
  else
    match x0s[0]?, y0s[0]?, x1s[0]?, y1s[0]? with
    | some a, some b, some c, some d => some (a, b, c, d)
    | _, _, _, _ => none

/-- Result of `usImageArea`: either a crop rectangle, or the fallback to
the unmodified whole image taken by the exception handler. -/
inductive CropOutcome
  | cropped (bounds : Int × Int × Int × Int)
  | wholeImage
  deriving DecidableEq

/-- `usImageArea`: a missing ultrasound-region sequence raises inside
`getAllAvailableRegions` and is caught here, as is any index error in the
coordinate selection; both paths return the whole image. -/
def usImageArea (regionSeq : Option (List USRegion)) : CropOutcome :=
  match regionSeq with
  | none => CropOutcome.wholeImage
  | some rs =>
    let g := getAllAvailableRegions rs
    match usCropBounds g.1 g.2.1 g.2.2.1 g.2.2.2 with
    | some b => CropOutcome.cropped b
    | none => CropOutcome.wholeImage

/-- A region with all four boundary fields present. -/
def fullRegion (t : Int × Int × Int × Int) : USRegion :=
  ⟨some t.1, some t.2.1, some t.2.2.1, some t.2.2.2⟩

/-- Interleave parts with separators: parts `[p1, ..., pn]` and
separators `[s1, ..., s(n-1)]` give `p1 ++ s1 ++ p2 ++ ... ++ pn`. -/
def interleave : List Str → List Str → Str
  | [], _ => []
  | [p], _ => p
  | p :: ps, [] => p ++ interleave ps []
  | p :: ps, s :: ss => p ++ (s ++ interleave ps ss)

/-- A word is reproduced exactly by its decomposition: either the
tokenizer rejects it, or space-joining the parts gives the word back. -/
def reconstructs_exactly (w : Str) : Prop :=
  match split_measurement w with
  | some ps => joinSp ps = w
  | none => True

instance (w : Str) : Decidable (reconstructs_exactly w) := by
  unfold reconstructs_exactly
  cases split_measurement w with
  | none => exact inferInstanceAs (Decidable True)
  | some ps => exact inferInstanceAs (Decidable (_ = _))

/-- A well-behaved word of a reconstructed line: already stripped,
nonempty, not a standalone unwanted character, and reproduced exactly by
its decomposition when the tokenizer fires. -/
def good_word (w : Str) : Prop :=
  stripL w = w ∧ w ≠ [] ∧
    (w.length == 1 && unwanted_chars.contains (w.headD ' ')) = false ∧
    reconstructs_exactly w

instance (w : Str) : Decidable (good_word w) := by
  unfold good_word
  infer_instance

/-! ### Theorems -/

/-- Each closed line is sorted ascending by `x`. -/
theorem sortX_sorted (l : List Fragment) : (sortX l).Sorted leX :=
  List.sorted_insertionSort leX l

/-- Closing a line keeps exactly its fragments. -/
theorem sortX_perm (l : List Fragment) : (sortX l).Perm l :=
  List.perm_insertionSort leX l

/-- Every line emitted by the grouping loop is sorted ascending by `x`. -/
theorem group_go_sorted :
    ∀ rest cur lastY line, line ∈ group_go cur lastY rest → line.Sorted leX := by
  intro rest
  induction rest with
  | nil =>
    intro cur lastY line h
    simp only [group_go, List.mem_singleton] at h
    exact h ▸ sortX_sorted cur
  | cons e rest ih =>
    intro cur lastY line h
    simp only [group_go] at h
    by_cases hd : |e.y - lastY| < same_line_threshold
    · rw [if_pos hd] at h
      exact ih _ _ _ h
    · rw [if_neg hd] at h
      rcases List.mem_cons.mp h with h | h
      · exact h ▸ sortX_sorted cur
      · exact ih _ _ _ h

/-- The grouping loop only reorders: its lines flatten to a permutation
of the pending fragments. -/
theorem group_go_flatten_perm :
    ∀ rest cur lastY, ((group_go cur lastY rest).flatten).Perm (cur ++ rest) := by
  intro rest
  induction rest with
  | nil =>
    intro cur lastY
    simp only [group_go, List.flatten, List.append_nil]
    exact sortX_perm cur
  | cons e rest ih =>
    intro cur lastY
    simp only [group_go]
    by_cases hd : |e.y - lastY| < same_line_threshold
    · rw [if_pos hd]
      refine (ih _ _).trans ?_
      simp
    · rw [if_neg hd]
      simp only [List.flatten_cons]
      calc sortX cur ++ (group_go [e] e.y rest).flatten
          |>.Perm (cur ++ ([e] ++ rest)) := (sortX_perm cur).append (ih _ _)
        _ = cur ++ e :: rest := by simp

/-- `group_lines` partitions its input: the lines flatten back to a
permutation of the sorted fragments. -/
theorem group_lines_flatten_perm (s : List Fragment) :
    ((group_lines s).flatten).Perm s := by
  cases s with
  | nil => simp [group_lines]
  | cons e rest =>
    simpa using group_go_flatten_perm rest [e] e.y

/-- Every line produced by row reconstruction is sorted ascending by `x`. -/
theorem group_lines_sorted (s : List Fragment) (line : List Fragment)
    (h : line ∈ group_lines s) : line.Sorted leX := by
  cases s with
  | nil => simp [group_lines] at h
  | cons e rest => exact group_go_sorted rest [e] e.y line h

/-- C1: RowReconstructor discards noise fragments, sorts the remainder
ascending by `y`, and chains fragments into a line while each fragment is
within 15 pixels of the most recently appended fragment's `y`, closing
each line sorted ascending by `x`.  Fragments at `y` 100, 101, 102 form
one line and a following fragment at `y` 118 starts a new one; a drifting
sequence 100, 110, 120, 130 chains into a single line even though the
first and last differ by 30; in general every emitted line is sorted
ascending by `x`, and the emitted lines together hold exactly the
non-noise fragments. -/
theorem row_reconstruction_spec :
    (structure_table_lines
        [⟨"a".toList, 0, 100, 1⟩, ⟨"b".toList, 1, 101, 1⟩,
         ⟨"c".toList, 2, 102, 1⟩, ⟨"d".toList, 3, 118, 1⟩] =
      [[⟨"a".toList, 0, 100, 1⟩, ⟨"b".toList, 1, 101, 1⟩, ⟨"c".toList, 2, 102, 1⟩],
       [⟨"d".toList, 3, 118, 1⟩]]) ∧
    (structure_table_lines
        [⟨"p".toList, 0, 100, 1⟩, ⟨"q".toList, 1, 110, 1⟩,
         ⟨"r".toList, 2, 120, 1⟩, ⟨"s".toList, 3, 130, 1⟩] =
      [[⟨"p".toList, 0, 100, 1⟩, ⟨"q".toList, 1, 110, 1⟩,
        ⟨"r".toList, 2, 120, 1⟩, ⟨"s".toList, 3, 130, 1⟩]]) ∧
    (∀ l line, line ∈ structure_table_lines l → line.Sorted leX) ∧
    (∀ l, ((structure_table_lines l).flatten).Perm (filter_text_elements l)) := by
  refine ⟨by decide, by decide, ?_, ?_⟩
  · intro l line h
    exact group_lines_sorted _ line h
  · intro l
    exact (group_lines_flatten_perm _).trans (List.perm_insertionSort leY _)

/-- C1 witness: the first line of the scenario, concretely sorted by `x`. -/
theorem row_reconstruction_spec_witness :
    ([⟨"a".toList, 0, 100, 1⟩, ⟨"b".toList, 1, 101, 1⟩, ⟨"c".toList, 2, 102, 1⟩] ∈
      structure_table_lines
        [⟨"a".toList, 0, 100, 1⟩, ⟨"b".toList, 1, 101, 1⟩,
         ⟨"c".toList, 2, 102, 1⟩, ⟨"d".toList, 3, 118, 1⟩]) ∧
    List.Sorted leX
      [⟨"a".toList, 0, 100, 1⟩, ⟨"b".toList, 1, 101, 1⟩, ⟨"c".toList, 2, 102, 1⟩] :=
  ⟨by decide,
    row_reconstruction_spec.2.2.1
      [⟨"a".toList, 0, 100, 1⟩, ⟨"b".toList, 1, 101, 1⟩,
       ⟨"c".toList, 2, 102, 1⟩, ⟨"d".toList, 3, 118, 1⟩]
      [⟨"a".toList, 0, 100, 1⟩, ⟨"b".toList, 1, 101, 1⟩, ⟨"c".toList, 2, 102, 1⟩]
      (by decide)⟩

/-- C9 counterexample: two distinct fragments at the same position leave
the per-line order dependent on the input order, so row reconstruction is
not invariant under reordering the same fragment set. -/
theorem row_reconstruction_order_dependent :
    (([⟨"a".toList, 0, 0, 1⟩, ⟨"b".toList, 0, 0, 1⟩] : List Fragment)).Perm
        [⟨"b".toList, 0, 0, 1⟩, ⟨"a".toList, 0, 0, 1⟩] ∧
    structure_table_lines [⟨"a".toList, 0, 0, 1⟩, ⟨"b".toList, 0, 0, 1⟩] ≠
      structure_table_lines [⟨"b".toList, 0, 0, 1⟩, ⟨"a".toList, 0, 0, 1⟩] := by
  decide

/-- C4: with exactly one region the crop is that region verbatim; with
two or more regions the crop is the union of the first two only, further
regions being ignored; including the concrete single- and dual-region
scenarios. -/
theorem region_geometry_spec :
    (∀ t : Int × Int × Int × Int,
      usImageArea (some [fullRegion t]) = CropOutcome.cropped t) ∧
    (∀ t0 t1 : Int × Int × Int × Int, ∀ rest : List USRegion,
      usImageArea (some (fullRegion t0 :: fullRegion t1 :: rest)) =
        CropOutcome.cropped
          (min t0.1 t1.1, min t0.2.1 t1.2.1, max t0.2.2.1 t1.2.2.1, max t0.2.2.2 t1.2.2.2)) ∧
    usImageArea (some [fullRegion (0, 0, 100, 200)]) = CropOutcome.cropped (0, 0, 100, 200) ∧
    usImageArea (some [fullRegion (0, 0, 100, 200), fullRegion (50, 10, 150, 220)]) =
      CropOutcome.cropped (0, 0, 150, 220) := by
  refine ⟨?_, ?_, by decide, by decide⟩
  · intro t
    obtain ⟨a, b, c, d⟩ := t
    rfl
  · intro t0 t1 rest
    obtain ⟨a0, b0, c0, d0⟩ := t0
    obtain ⟨a1, b1, c1, d1⟩ := t1
    simp only [usImageArea, getAllAvailableRegions, fullRegion, List.filterMap_cons,
      usCropBounds, List.length_cons]
    rw [if_pos (by omega : 2 ≤ (List.filterMap (fun r => r.x0) rest).length + 1 + 1)]
    simp only [List.getElem?_cons_zero, List.getElem?_cons_succ]

/-- C5 counterexample: a region lacking its minimum-x field is not an
error; with a second complete region the resolver silently computes a
crop that mixes the two regions' coordinates instead of failing so the
caller could fall back to the whole image. -/
theorem region_missing_field_not_error :
    usImageArea (some [⟨none, some 5, some 100, some 200⟩,
        ⟨some 10, some 20, some 110, some 220⟩]) =
      CropOutcome.cropped (10, 5, 100, 200) ∧
    usImageArea (some [⟨none, some 5, some 100, some 200⟩,
        ⟨some 10, some 20, some 110, some 220⟩]) ≠
      CropOutcome.wholeImage := by
  decide

/-- C5 amended: a missing ultrasound-region sequence makes the resolver
raise and the caller falls back to the whole image, and the zero-regions
case reaches the same whole-image fallback (through a later index error,
not a distinct signal); a region lacking a boundary field is skipped
field-wise with only a warning, so a lone defective region falls back
only via the index error while a defective region next to a complete one
yields a silently mixed crop. -/
theorem region_geometry_error_amended :
    usImageArea none = CropOutcome.wholeImage ∧
    usImageArea (some []) = CropOutcome.wholeImage ∧
    usImageArea (some [⟨none, some 5, some 100, some 200⟩]) = CropOutcome.wholeImage ∧
    getAllAvailableRegions
        [⟨none, some 5, some 100, some 200⟩, ⟨some 10, some 20, some 110, some 220⟩] =
      ([10], [5, 20], [100, 110], [200, 220]) ∧
    usImageArea (some [⟨none, some 5, some 100, some 200⟩,
        ⟨some 10, some 20, some 110, some 220⟩]) =
      CropOutcome.cropped (10, 5, 100, 200) := by
  decide

/-- A successful first-occurrence split decomposes the text around the
pattern. -/
theorem splitFirstOcc_eq (pat : Str) :
    ∀ s b a, splitFirstOcc pat s = some (b, a) → s = b ++ pat ++ a := by
  intro s
  induction s with
  | nil =>
    intro b a h
    simp only [splitFirstOcc] at h
    by_cases hp : pat.isEmpty
    · rw [if_pos hp] at h
      obtain ⟨rfl, rfl⟩ := Prod.mk.injEq .. ▸ Option.some.inj h
      simp [List.isEmpty_iff.mp hp]
    · rw [if_neg hp] at h
      exact absurd h (by simp)
  | cons c s ih =>
    intro b a h
    simp only [splitFirstOcc] at h
    by_cases hp : pat.isPrefixOf (c :: s)
    · rw [if_pos hp] at h
      obtain ⟨rfl, rfl⟩ := Prod.mk.injEq .. ▸ Option.some.inj h
      obtain ⟨t, ht⟩ := List.isPrefixOf_iff_prefix.mp hp
      rw [← ht, List.drop_left]
      simp
    · rw [if_neg hp] at h
      cases hsp : splitFirstOcc pat s with
      | none => rw [hsp] at h; exact absurd h (by simp)
      | some p =>
        rw [hsp] at h
        obtain ⟨b', a'⟩ := p
        obtain ⟨rfl, rfl⟩ := Prod.mk.injEq .. ▸ Option.some.inj h.symm
        simp [ih b' a hsp]

/-- Character conservation of the keyword loop: each recorded keyword
deletes exactly one occurrence of itself from the remaining text, so the
keyword lengths and the final remainder add up to the input length.  In
particular the text spans credited to the matched keywords are disjoint. -/
theorem matchLoop_conservation :
    ∀ kws rem, (((matchLoop kws rem).1).map List.length).sum +
      ((matchLoop kws rem).2).length = rem.length := by
  intro kws
  induction kws with
  | nil => intro rem; simp [matchLoop]
  | cons kw kws ih =>
    intro rem
    simp only [matchLoop]
    cases hs : splitFirstOcc (lowerS kw) rem with
    | none => simpa using ih rem
    | some p =>
      obtain ⟨b, a⟩ := p
      have hr := splitFirstOcc_eq (lowerS kw) rem b a hs
      have hlen : (lowerS kw).length = kw.length := by simp [lowerS]
      have := ih (b ++ a)
      simp only [List.map_cons, List.sum_cons]
      simp only [hr, List.length_append, hlen] at *
      omega

/-- The recorded keywords are a sublist of the catalogue scan order:
every keyword is tested exactly once. -/
theorem matchLoop_sublist :
    ∀ kws rem, ((matchLoop kws rem).1).Sublist kws := by
  intro kws
  induction kws with
  | nil => intro rem; simp [matchLoop]
  | cons kw kws ih =>
    intro rem
    simp only [matchLoop]
    cases hs : splitFirstOcc (lowerS kw) rem with
    | none => exact (ih rem).cons kw
    | some p => exact (ih (p.1 ++ p.2)).cons₂ kw

/-- C6: the organ keyword matcher scans keywords longest first and
deletes each match from the remaining text, so matched spans never
overlap: the total length of the matched keywords plus the remaining
text equals the scanned text's length, and in particular never exceeds
it.  The text right kidney measures 9.2 cm yields exactly the keyword
right kidney, not additionally kidney. -/
theorem organ_keyword_spec :
    organLabelIdentification ["right kidney measures 9.2 cm".toList] =
      ["right kidney".toList] ∧
    (∀ texts : List Str,
      ((organLabelIdentification texts).map List.length).sum +
        ((matchLoop keywords_sorted (lowerS (all_text_of texts))).2).length =
      (all_text_of texts).length) ∧
    (∀ texts : List Str,
      ((organLabelIdentification texts).map List.length).sum ≤ (all_text_of texts).length) := by
  have key : ∀ texts : List Str,
      ((organLabelIdentification texts).map List.length).sum +
        ((matchLoop keywords_sorted (lowerS (all_text_of texts))).2).length =
      (all_text_of texts).length := by
    intro texts
    have := matchLoop_conservation keywords_sorted (lowerS (all_text_of texts))
    have hlen : (lowerS (all_text_of texts)).length = (all_text_of texts).length := by
      simp [lowerS]
    simpa [organLabelIdentification, hlen] using this
  exact ⟨by decide, key, fun texts => by have := key texts; omega⟩

/-- C10: each catalogue keyword appears at most once in the matcher's
result, however often its text occurs in the input: the result has no
duplicates, being a sublist of the duplicate-free sorted catalogue in
which every keyword is tested exactly once. -/
theorem organ_keyword_at_most_once :
    ∀ texts : List Str, (organLabelIdentification texts).Nodup ∧
      (organLabelIdentification texts).Sublist keywords_sorted := by
  intro texts
  have hsub : (organLabelIdentification texts).Sublist keywords_sorted := by
    simpa [organLabelIdentification] using
      matchLoop_sublist keywords_sorted (lowerS (all_text_of texts))
  have hnd : keywords_sorted.Nodup := by decide
  exact ⟨hnd.sublist hsub, hsub⟩

/-- C7: the scoring scenario: a candidate whose fragments contain two
centimetre unit values and one d1 key term scores 2 + 1 + 2 times 2 = 7,
which meets the acceptance threshold 4; a vol plus millilitre candidate
scores 4, exactly at the threshold; an empty candidate scores 0. -/
theorem measurement_score_scenario :
    calculate_measurement_score ["d1".toList, "2.5cm".toList, "3.1cm".toList] = 7 ∧
    meets_threshold (calculate_measurement_score ["d1".toList, "2.5cm".toList, "3.1cm".toList]) ∧
    calculate_measurement_score ["vol".toList, "3.2ml".toList] = 4 ∧
    meets_threshold (calculate_measurement_score ["vol".toList, "3.2ml".toList]) ∧
    calculate_measurement_score [] = 0 := by
  decide

/-- A successful c m literal match pins down the input's shape. -/
theorem cmAfter_eq {t rest : Str} (h : cmAfter t = some rest) :
    t = 'c' :: 'm' :: rest := by
  unfold cmAfter at h
  split at h
  · injection h with h'
    subst h'
    rfl
  · exact absurd h (by simp)

/-- Appending the c m letters last can be rebracketed. -/
theorem endsCm_app (a b : Str) : ∃ p, a ++ (b ++ ['c', 'm']) = p ++ ['c', 'm'] :=
  ⟨a ++ b, by simp⟩

/-- The fractional form also ends in the c m letters. -/
theorem endsCm_frac (a b c : Str) :
    ∃ p, a ++ ('.' :: (b ++ (c ++ ['c', 'm']))) = p ++ ['c', 'm'] :=
  ⟨a ++ '.' :: (b ++ c), by simp⟩

/-- Every value the tokenizer captures ends in the letters c m. -/
theorem matchValueCm_ends_cm {s v rest : Str} (h : matchValueCm s = some (v, rest)) :
    ∃ p, v = p ++ ['c', 'm'] := by
  simp only [matchValueCm] at h
  repeat' split at h
  all_goals try simp only [Option.some.injEq, Prod.mk.injEq, List.append_assoc,
    List.cons_append] at h
  all_goals first
    | exact Option.noConfusion h
    | (obtain ⟨rfl, rfl⟩ := h
       first
         | exact endsCm_app _ _
         | exact endsCm_frac _ _ _)

/-- The captured value followed by the unconsumed rest reassembles the
value matcher's input. -/
theorem matchValueCm_append {s v rest : Str} (h : matchValueCm s = some (v, rest)) :
    v ++ rest = s := by
  have hs : s.takeWhile isDig ++ s.dropWhile isDig = s := List.takeWhile_append_dropWhile ..
  simp only [matchValueCm] at h
  split at h
  · exact Option.noConfusion h
  split at h
  next r r2 heq1 =>
    split at h
    next hd2 =>
      split at h
      next x rest2 hcm =>
        simp only [Option.some.injEq, Prod.mk.injEq] at h
        obtain ⟨rfl, rfl⟩ := h
        have h3 := cmAfter_eq hcm
        simp only [List.append_assoc, List.cons_append, List.nil_append]
        rw [← h3, List.takeWhile_append_dropWhile]
        exact hs
      next x hcm => exact Option.noConfusion h
    next hd2 =>
      split at h
      next x rest2 hcm =>
        simp only [Option.some.injEq, Prod.mk.injEq] at h
        obtain ⟨rfl, rfl⟩ := h
        have h3 := cmAfter_eq hcm
        simp only [List.append_assoc, List.cons_append, List.nil_append]
        rw [← h3, List.takeWhile_append_dropWhile, List.takeWhile_append_dropWhile, ← heq1]
        exact hs
      next x hcm =>
        split at h
        next x2 rest2 hcm2 =>
          simp only [Option.some.injEq, Prod.mk.injEq] at h
          obtain ⟨rfl, rfl⟩ := h
          have h3 := cmAfter_eq hcm2
          simp only [List.append_assoc, List.cons_append, List.nil_append]
          rw [← h3, List.takeWhile_append_dropWhile]
          exact hs
        next x2 hcm2 => exact Option.noConfusion h
  next r hne =>
    split at h
    next x rest2 hcm =>
      simp only [Option.some.injEq, Prod.mk.injEq] at h
      obtain ⟨rfl, rfl⟩ := h
      have h3 := cmAfter_eq hcm
      simp only [List.append_assoc, List.cons_append, List.nil_append]
      rw [← h3, List.takeWhile_append_dropWhile]
      exact hs
    next x hcm => exact Option.noConfusion h

/-- Each candidate split of the digit run reassembles to the run and its
continuation. -/
theorem splitsAsc_append :
    ∀ d r : Str, ∀ p ∈ splitsAsc d r, p.1 ++ p.2 = d ++ r := by
  intro d
  induction d with
  | nil =>
    intro r p hp
    simp only [splitsAsc, List.mem_singleton] at hp
    simp [hp]
  | cons c d ih =>
    intro r p hp
    simp only [splitsAsc, List.mem_cons, List.mem_map] at hp
    rcases hp with rfl | ⟨q, hq, rfl⟩
    · rfl
    · simpa using ih r q hq

/-- Membership in the greedy-order splits is membership in the splits. -/
theorem mem_splitsDesc {d r : Str} {p : Str × Str} (hp : p ∈ splitsDesc d r) :
    p ∈ splitsAsc d r := by
  simpa [splitsDesc] using hp

/-- A successful label-and-value match decomposes its input into the
label, a separator run of dots and whitespace, the value, and the
unconsumed rest. -/
theorem matchLabelValue_decomp {s a v rest : Str}
    (h : matchLabelValue s = some (a, v, rest)) :
    ∃ sep, s = a ++ (sep ++ (v ++ rest)) ∧ ∀ c ∈ sep, isSepCh c = true := by
  simp only [matchLabelValue] at h
  split at h
  · exact Option.noConfusion h
  next hletters =>
    obtain ⟨cand, hmem, hf⟩ := List.exists_of_findSome?_eq_some h
    cases hmv : matchValueCm (cand.2.dropWhile isSepCh) with
    | none => rw [hmv] at hf; exact Option.noConfusion hf
    | some p =>
      obtain ⟨v', rest'⟩ := p
      rw [hmv] at hf
      simp only [Option.some.injEq, Prod.mk.injEq] at hf
      obtain ⟨rfl, rfl, rfl⟩ := hf
      refine ⟨cand.2.takeWhile isSepCh, ?_, fun c hc => List.mem_takeWhile_imp hc⟩
      have hv : v' ++ rest' = cand.2.dropWhile isSepCh := matchValueCm_append hmv
      have hcand : cand.1 ++ cand.2 =
          ((s.dropWhile isDig).dropWhile isAlphaCh).takeWhile isDig ++
            ((s.dropWhile isDig).dropWhile isAlphaCh).dropWhile isDig :=
        splitsAsc_append _ _ cand (mem_splitsDesc hmem)
      have h2 : cand.2.takeWhile isSepCh ++ (v' ++ rest') = cand.2 := by
        rw [hv, List.takeWhile_append_dropWhile]
      rw [List.append_assoc, List.append_assoc, h2]
      have h4 : (s.dropWhile isDig).takeWhile isAlphaCh ++ (cand.1 ++ cand.2) =
          s.dropWhile isDig := by
        rw [hcand, List.takeWhile_append_dropWhile, List.takeWhile_append_dropWhile]
      calc s = s.takeWhile isDig ++ s.dropWhile isDig :=
            (List.takeWhile_append_dropWhile ..).symm
        _ = s.takeWhile isDig ++ ((s.dropWhile isDig).takeWhile isAlphaCh ++
              (cand.1 ++ cand.2)) := by rw [h4]

/-- A successful label-and-value match captures a value ending in the
letters c m. -/
theorem matchLabelValue_ends_cm {s a v rest : Str}
    (h : matchLabelValue s = some (a, v, rest)) : ∃ p, v = p ++ ['c', 'm'] := by
  simp only [matchLabelValue] at h
  split at h
  · exact Option.noConfusion h
  next hletters =>
    obtain ⟨cand, hmem, hf⟩ := List.exists_of_findSome?_eq_some h
    cases hmv : matchValueCm (cand.2.dropWhile isSepCh) with
    | none => rw [hmv] at hf; exact Option.noConfusion hf
    | some p =>
      obtain ⟨v', rest'⟩ := p
      rw [hmv] at hf
      simp only [Option.some.injEq, Prod.mk.injEq] at hf
      obtain ⟨-, rfl, -⟩ := hf
      exact matchValueCm_ends_cm hmv

/-- Pattern 1 decomposes the word into leading digits, a whitespace run,
the label, a separator run, the captured value (which ends in the letters
c m), and a dropped suffix. -/
theorem matchPattern1_decomp {w : Str} {ps : List Str} (h : matchPattern1 w = some ps) :
    ∃ d1 a v sep1 sep2 suffix,
      ps = [d1, a, v] ∧
      w = d1 ++ (sep1 ++ (a ++ (sep2 ++ (v ++ suffix)))) ∧
      (∀ c ∈ sep1, isSpc c = true) ∧
      (∀ c ∈ sep2, isSepCh c = true) ∧
      (∃ p, v = p ++ ['c', 'm']) := by
  simp only [matchPattern1] at h
  split at h
  · exact Option.noConfusion h
  next hd1 =>
    split at h
    · exact Option.noConfusion h
    next hws =>
      cases hml : matchLabelValue ((w.dropWhile isDig).dropWhile isSpc) with
      | none => rw [hml] at h; exact Option.noConfusion h
      | some t =>
        obtain ⟨a, v, rest⟩ := t
        rw [hml] at h
        simp only [Option.some.injEq] at h
        subst h
        obtain ⟨sep2, hdec, hsep2⟩ := matchLabelValue_decomp hml
        refine ⟨w.takeWhile isDig, a, v, (w.dropWhile isDig).takeWhile isSpc, sep2, rest,
          rfl, ?_, fun c hc => List.mem_takeWhile_imp hc, hsep2, matchLabelValue_ends_cm hml⟩
        calc w = w.takeWhile isDig ++ w.dropWhile isDig :=
              (List.takeWhile_append_dropWhile ..).symm
          _ = w.takeWhile isDig ++ ((w.dropWhile isDig).takeWhile isSpc ++
                (w.dropWhile isDig).dropWhile isSpc) :=
              congrArg (w.takeWhile isDig ++ ·) (List.takeWhile_append_dropWhile ..).symm
          _ = w.takeWhile isDig ++ ((w.dropWhile isDig).takeWhile isSpc ++
                (a ++ (sep2 ++ (v ++ rest)))) := by rw [hdec]

/-- Pattern 2 decomposes the word into the label, a separator run, the
captured value (ending in the letters c m), and a dropped suffix. -/
theorem matchPattern2_decomp {w : Str} {ps : List Str} (h : matchPattern2 w = some ps) :
    ∃ a v sep suffix, ps = [a, v] ∧ w = a ++ (sep ++ (v ++ suffix)) ∧
      (∀ c ∈ sep, isSepCh c = true) ∧ (∃ p, v = p ++ ['c', 'm']) := by
  simp only [matchPattern2] at h
  cases hml : matchLabelValue w with
  | none => rw [hml] at h; exact Option.noConfusion h
  | some t =>
    obtain ⟨a, v, rest⟩ := t
    rw [hml] at h
    simp only [Option.some.injEq] at h
    subst h
    obtain ⟨sep, hdec, hsep⟩ := matchLabelValue_decomp hml
    exact ⟨a, v, sep, rest, rfl, hdec, hsep, matchLabelValue_ends_cm hml⟩

/-- C3 amended: the tokenizer only ever captures a value ending in the
letters c m, trying pattern 1 then pattern 2 anchored at the start with
the first match winning, and leaves millimetre and millilitre words raw;
but a cubic-centimetre word is not left raw: the match, not being
anchored at the end, decomposes it and drops the cube suffix.  Leading
text that fits neither pattern invalidates the whole word. -/
theorem split_measurement_amended :
    (∀ w ps, split_measurement w = some ps →
      ∃ v p, ps.getLast? = some v ∧ v = p ++ ['c', 'm']) ∧
    split_measurement "1 d1 2.5 cm".toList =
      some ["1".toList, "d1".toList, "2.5 cm".toList] ∧
    split_measurement "d1 2.5 cm".toList = some ["d1".toList, "2.5 cm".toList] ∧
    split_measurement "d1 2.5 mm".toList = none ∧
    split_measurement "d1 2.5 ml".toList = none ∧
    split_measurement "x 1 d1 2.5 cm".toList = none ∧
    split_measurement "d1 2.5 cm^3".toList = some ["d1".toList, "2.5 cm".toList] := by
  refine ⟨?_, by decide, by decide, by decide, by decide, by decide, by decide⟩
  intro w ps h
  simp only [split_measurement] at h
  cases h1 : matchPattern1 w with
  | some ps1 =>
    rw [h1] at h
    simp only [Option.some.injEq] at h
    subst h
    obtain ⟨d1, a, v, sep1, sep2, suffix, hps, -, -, -, p, hp⟩ := matchPattern1_decomp h1
    exact ⟨v, p, by rw [hps]; rfl, hp⟩
  | none =>
    rw [h1] at h
    obtain ⟨a, v, sep, suffix, hps, -, -, p, hp⟩ := matchPattern2_decomp h
    exact ⟨v, p, by rw [hps]; rfl, hp⟩

/-- C3 witness: the pattern-2 example, with its captured value ending in
the letters c m. -/
theorem split_measurement_amended_witness :
    (split_measurement "d1 2.5 cm".toList = some ["d1".toList, "2.5 cm".toList]) ∧
    (∃ v p, (some ["d1".toList, "2.5 cm".toList] : Option (List Str)).bind List.getLast? =
        some v ∧ v = p ++ ['c', 'm']) := by
  refine ⟨by decide, ?_⟩
  obtain ⟨v, p, h1, h2⟩ :=
    split_measurement_amended.1 ("d1 2.5 cm".toList) ["d1".toList, "2.5 cm".toList] (by decide)
  exact ⟨v, p, by simpa using h1, h2⟩

/-- C3 counterexample: a cubic-centimetre word is not left as a raw
undecomposed token; it is decomposed with the cube suffix dropped. -/
theorem split_measurement_cm3_not_raw :
    split_measurement "d1 2.5 cm^3".toList ≠ none ∧
    split_measurement "d1 2.5 cm^3".toList = some ["d1".toList, "2.5 cm".toList] := by
  decide

/-- Digits are not whitespace. -/
theorem isSpc_false_of_isDig {c : Char} (h : isDig c = true) : isSpc c = false := by
  by_contra hc
  rw [Bool.not_eq_false] at hc
  simp only [isSpc, Bool.or_eq_true, beq_iff_eq] at hc
  rcases hc with ((((rfl | rfl) | rfl) | rfl) | rfl) | rfl <;> exact absurd h (by decide)

/-- Letters are not whitespace. -/
theorem isSpc_false_of_isAlphaCh {c : Char} (h : isAlphaCh c = true) : isSpc c = false := by
  by_contra hc
  rw [Bool.not_eq_false] at hc
  simp only [isSpc, Bool.or_eq_true, beq_iff_eq] at hc
  rcases hc with ((((rfl | rfl) | rfl) | rfl) | rfl) | rfl <;> exact absurd h (by decide)

/-- Stripping is the identity on a word with no leading and no trailing
whitespace. -/
theorem stripL_eq_self {s : Str}
    (h1 : ∀ c, s.head? = some c → isSpc c = false)
    (h2 : ∀ c, s.getLast? = some c → isSpc c = false) : stripL s = s := by
  unfold stripL
  cases s with
  | nil => rfl
  | cons a t =>
    have ha : isSpc a = false := h1 a rfl
    have hfront : (a :: t).dropWhile isSpc = a :: t := by
      simp [List.dropWhile_cons, ha]
    rw [hfront]
    have hback : (a :: t).reverse.dropWhile isSpc = (a :: t).reverse := by
      cases hr : (a :: t).reverse with
      | nil => simp at hr
      | cons b u =>
        have hb : (a :: t).getLast? = some b := by
          rw [← List.head?_reverse, hr]
          rfl
        simp [List.dropWhile_cons, h2 b hb]
    rw [hback, List.reverse_reverse]

/-- Stripping is the identity on a word with no whitespace at all. -/
theorem stripL_eq_of_no_space {s : Str} (h : ∀ c ∈ s, isSpc c = false) : stripL s = s :=
  stripL_eq_self (fun c hc => h c (List.mem_of_mem_head? hc))
    (fun c hc => h c (List.mem_of_mem_getLast? hc))

/-- The label part of each candidate split consists of digits from the
digit run. -/
theorem splitsAsc_left_mem :
    ∀ d r : Str, ∀ p ∈ splitsAsc d r, ∀ c ∈ p.1, c ∈ d := by
  intro d
  induction d with
  | nil =>
    intro r p hp
    simp only [splitsAsc, List.mem_singleton] at hp
    simp [hp]
  | cons a d ih =>
    intro r p hp
    simp only [splitsAsc, List.mem_cons, List.mem_map] at hp
    rcases hp with rfl | ⟨q, hq, rfl⟩
    · simp
    · intro c hc
      simp only [List.mem_cons] at hc
      rcases hc with rfl | hc
      · exact List.mem_cons_self ..
      · exact List.mem_cons_of_mem _ (ih r q hq c hc)

/-- The captured value starts with a digit and ends with the letter m,
hence stripping it is the identity, and it is nonempty. -/
theorem matchValueCm_stripped {s v rest : Str} (h : matchValueCm s = some (v, rest)) :
    stripL v = v ∧ v ≠ [] := by
  have hhead : ∀ d x : Str, d = s.takeWhile isDig → ¬d.isEmpty = true →
      stripL (d ++ x ++ ['c', 'm']) = d ++ x ++ ['c', 'm'] ∧ d ++ x ++ ['c', 'm'] ≠ [] := by
    intro d x hd hne
    constructor
    · refine stripL_eq_self (fun c hc => ?_) (fun c hc => ?_)
      · cases hdl : d with
        | nil => rw [hdl] at hne; exact absurd rfl hne
        | cons c0 d0 =>
          rw [hdl] at hc
          simp only [List.cons_append, List.head?_cons, Option.some.injEq] at hc
          have hm : c0 ∈ s.takeWhile isDig := by
            rw [← hd, hdl]
            exact List.mem_cons_self ..
          rw [← hc]
          exact isSpc_false_of_isDig (List.mem_takeWhile_imp hm)
      · rw [List.getLast?_append_of_ne_nil (d ++ x) (by simp : (['c', 'm'] : Str) ≠ [])] at hc
        have hcm2 : (['c', 'm'] : Str).getLast? = some 'm' := rfl
        rw [hcm2] at hc
        obtain rfl := Option.some.inj hc
        decide
    · simp
  simp only [matchValueCm] at h
  split at h
  · exact Option.noConfusion h
  next hde =>
    split at h
    next r r2 heq1 =>
      split at h
      next hd2 =>
        split at h
        next x rest2 hcm =>
          simp only [Option.some.injEq, Prod.mk.injEq] at h
          obtain ⟨rfl, rfl⟩ := h
          exact hhead _ _ rfl hde
        next x hcm => exact Option.noConfusion h
      next hd2 =>
        split at h
        next x rest2 hcm =>
          simp only [Option.some.injEq, Prod.mk.injEq] at h
          obtain ⟨rfl, rfl⟩ := h
          exact hhead _ _ rfl hde
        next x hcm =>
          split at h
          next x2 rest2 hcm2 =>
            simp only [Option.some.injEq, Prod.mk.injEq] at h
            obtain ⟨rfl, rfl⟩ := h
            exact hhead _ _ rfl hde
          next x2 hcm2 => exact Option.noConfusion h
    next r hne =>
      split at h
      next x rest2 hcm =>
        simp only [Option.some.injEq, Prod.mk.injEq] at h
        obtain ⟨rfl, rfl⟩ := h
        exact hhead _ _ rfl hde
      next x hcm => exact Option.noConfusion h

/-- The captured label is whitespace-free, hence stripped, and nonempty;
likewise the strip facts for the value. -/
theorem matchLabelValue_stripped {s a v rest : Str}
    (h : matchLabelValue s = some (a, v, rest)) :
    stripL a = a ∧ a ≠ [] ∧ stripL v = v ∧ v ≠ [] := by
  simp only [matchLabelValue] at h
  split at h
  · exact Option.noConfusion h
  next hletters =>
    obtain ⟨cand, hmem, hf⟩ := List.exists_of_findSome?_eq_some h
    cases hmv : matchValueCm (cand.2.dropWhile isSepCh) with
    | none => rw [hmv] at hf; exact Option.noConfusion hf
    | some p =>
      obtain ⟨v', rest'⟩ := p
      rw [hmv] at hf
      simp only [Option.some.injEq, Prod.mk.injEq] at hf
      obtain ⟨rfl, rfl, rfl⟩ := hf
      obtain ⟨hv1, hv2⟩ := matchValueCm_stripped hmv
      refine ⟨?_, ?_, hv1, hv2⟩
      · refine stripL_eq_of_no_space (fun c hc => ?_)
        simp only [List.mem_append] at hc
        rcases hc with hc | hc | hc
        · exact isSpc_false_of_isDig (List.mem_takeWhile_imp hc)
        · exact isSpc_false_of_isAlphaCh (List.mem_takeWhile_imp hc)
        · have : c ∈ ((s.dropWhile isDig).dropWhile isAlphaCh).takeWhile isDig :=
            splitsAsc_left_mem _ _ cand (mem_splitsDesc hmem) c hc
          exact isSpc_false_of_isDig (List.mem_takeWhile_imp this)
      · intro hnil
        rw [List.append_eq_nil] at hnil
        have h2 := List.append_eq_nil.mp hnil.2
        rw [h2.1] at hletters
        exact hletters rfl

/-- Every part returned by pattern 1 is already stripped, and the part
list is nonempty. -/
theorem matchPattern1_parts {w : Str} {ps : List Str} (h : matchPattern1 w = some ps) :
    (∀ p ∈ ps, stripL p = p) ∧ ps ≠ [] := by
  simp only [matchPattern1] at h
  split at h
  · exact Option.noConfusion h
  next hd1 =>
    split at h
    · exact Option.noConfusion h
    next hws =>
      cases hml : matchLabelValue ((w.dropWhile isDig).dropWhile isSpc) with
      | none => rw [hml] at h; exact Option.noConfusion h
      | some t =>
        obtain ⟨a, v, rest⟩ := t
        rw [hml] at h
        simp only [Option.some.injEq] at h
        subst h
        obtain ⟨ha1, ha2, hv1, hv2⟩ := matchLabelValue_stripped hml
        refine ⟨?_, by simp⟩
        intro p hp
        simp only [List.mem_cons, List.not_mem_nil, or_false] at hp
        rcases hp with rfl | rfl | rfl
        · exact stripL_eq_of_no_space fun c hc =>
            isSpc_false_of_isDig (List.mem_takeWhile_imp hc)
        · exact ha1
        · exact hv1

/-- Every part returned by pattern 2 is already stripped, and the part
list is nonempty. -/
theorem matchPattern2_parts {w : Str} {ps : List Str} (h : matchPattern2 w = some ps) :
    (∀ p ∈ ps, stripL p = p) ∧ ps ≠ [] := by
  simp only [matchPattern2] at h
  cases hml : matchLabelValue w with
  | none => rw [hml] at h; exact Option.noConfusion h
  | some t =>
    obtain ⟨a, v, rest⟩ := t
    rw [hml] at h
    simp only [Option.some.injEq] at h
    subst h
    obtain ⟨ha1, ha2, hv1, hv2⟩ := matchLabelValue_stripped hml
    refine ⟨?_, by simp⟩
    intro p hp
    simp only [List.mem_cons, List.not_mem_nil, or_false] at hp
    rcases hp with rfl | rfl
    · exact ha1
    · exact hv1

/-- The tokenizer's parts are already stripped and form a nonempty list. -/
theorem split_measurement_parts {w : Str} {ps : List Str}
    (h : split_measurement w = some ps) : (∀ p ∈ ps, stripL p = p) ∧ ps ≠ [] := by
  simp only [split_measurement] at h
  cases h1 : matchPattern1 w with
  | some ps1 =>
    rw [h1] at h
    simp only [Option.some.injEq] at h
    subst h
    exact matchPattern1_parts h1
  | none =>
    rw [h1] at h
    exact matchPattern2_parts h

/-- Space-joining a nonempty tail inserts one space after the head. -/
theorem joinSp_cons_of_ne {t : Str} {ts : List Str} (h : ts ≠ []) :
    joinSp (t :: ts) = t ++ ' ' :: joinSp ts := by
  cases ts with
  | nil => exact absurd rfl h
  | cons a l => rfl

/-- Space-joining distributes over appending two nonempty token lists. -/
theorem joinSp_append {A B : List Str} (hA : A ≠ []) (hB : B ≠ []) :
    joinSp (A ++ B) = joinSp A ++ ' ' :: joinSp B := by
  induction A with
  | nil => exact absurd rfl hA
  | cons a A ih =>
    cases A with
    | nil =>
      rw [List.singleton_append, joinSp_cons_of_ne hB]
      rfl
    | cons b A2 =>
      have hA2 : b :: A2 ≠ [] := by simp
      have hAB : (b :: A2) ++ B ≠ [] := by simp
      rw [List.cons_append, joinSp_cons_of_ne hAB, ih hA2, joinSp_cons_of_ne hA2]
      simp

/-- For a well-behaved word the word loop reduces to the tokenizer. -/
theorem process_word_eq {w : Str} (h1 : stripL w = w) (h2 : w ≠ [])
    (h3 : (w.length == 1 && unwanted_chars.contains (w.headD ' ')) = false) :
    process_word w =
      (match split_measurement w with | some ps => ps | none => [w]) := by
  have hne : w.isEmpty = false := by
    cases w with
    | nil => exact absurd rfl h2
    | cons c t => rfl
  unfold process_word
  rw [h1, if_neg (by rw [hne, h3]; simp)]

/-- A well-behaved word contributes at least one token. -/
theorem process_word_ne_nil {w : Str} (h : good_word w) : process_word w ≠ [] := by
  obtain ⟨h1, h2, h3, h4⟩ := h
  rw [process_word_eq h1 h2 h3]
  cases hsm : split_measurement w with
  | none => simp
  | some ps => exact (split_measurement_parts hsm).2

/-- Mapping a function that fixes every member is the identity. -/
theorem map_eq_self_of_mem {f : Str → Str} :
    ∀ {l : List Str}, (∀ x ∈ l, f x = x) → l.map f = l := by
  intro l
  induction l with
  | nil => intro _; rfl
  | cons a t ih =>
    intro h
    simp only [List.map_cons]
    rw [h a (List.mem_cons_self ..), ih fun x hx => h x (List.mem_cons_of_mem _ hx)]

/-- For a line of well-behaved words, the word loop plus flattening plus
stripping plus space-joining reproduces the space-joined words. -/
theorem process_line_eq {line : List Str} (h : ∀ w ∈ line, good_word w) :
    process_line line = joinSp line := by
  induction line with
  | nil => rfl
  | cons w rest ih =>
    obtain ⟨h1, h2, h3, h4⟩ := h w (List.mem_cons_self ..)
    have hrest : ∀ w2 ∈ rest, good_word w2 := fun w2 hw2 => h w2 (List.mem_cons_of_mem _ hw2)
    have hw := process_word_eq h1 h2 h3
    have htok : process_word w ≠ [] ∧ (process_word w).map stripL = process_word w ∧
        joinSp (process_word w) = w := by
      rw [hw]
      cases hsm : split_measurement w with
      | none =>
        refine ⟨by simp, by simp [h1], rfl⟩
      | some ps =>
        obtain ⟨hstr, hnil⟩ := split_measurement_parts hsm
        refine ⟨hnil, map_eq_self_of_mem hstr, ?_⟩
        have h5 := h4
        unfold reconstructs_exactly at h5
        rw [hsm] at h5
        exact h5
    obtain ⟨ht1, ht2, ht3⟩ := htok
    show joinSp (((List.map process_word (w :: rest)).flatten).map stripL) = joinSp (w :: rest)
    rw [List.map_cons, List.flatten_cons, List.map_append, ht2]
    cases rest with
    | nil =>
      simp only [List.map_nil, List.flatten_nil, List.map_nil, List.append_nil]
      rw [ht3]
      rfl
    | cons r rs =>
      have hrne : process_word r ≠ [] :=
        process_word_ne_nil (hrest r (List.mem_cons_self ..))
      have hFne : (List.map process_word (r :: rs)).flatten ≠ [] := by
        simp only [List.map_cons, List.flatten_cons]
        intro heq
        exact hrne (List.append_eq_nil.mp heq).1
      have hFne2 : ((List.map process_word (r :: rs)).flatten).map stripL ≠ [] := by
        intro heq
        exact hFne (List.map_eq_nil_iff.mp heq)
      rw [joinSp_append ht1 hFne2, ht3]
      have hpl : joinSp (((List.map process_word (r :: rs)).flatten).map stripL) =
          joinSp (r :: rs) := ih hrest
      rw [hpl, joinSp_cons_of_ne (by simp : (r :: rs : List Str) ≠ [])]

/-- C2 amended: the tokenizer loses only its own separator characters
and any text after the matched value: the parts it returns occur in the
source word in order, separated by runs of dots and whitespace, with at
most a dropped suffix after the value.  Row reconstruction therefore
equals the space-joined original words exactly when every word of the
line is stripped, non-noise, and reproduced exactly by space-joining its
decomposition. -/
theorem tokenizer_conservation_amended :
    (∀ w ps, split_measurement w = some ps →
      ∃ seps suffix, interleave ps seps ++ suffix = w ∧
        seps.length + 1 = ps.length ∧
        ∀ s ∈ seps, ∀ c ∈ s, isSepCh c = true) ∧
    (∀ line : List Str, (∀ w ∈ line, good_word w) → process_line line = joinSp line) := by
  refine ⟨?_, fun line h => process_line_eq h⟩
  intro w ps h
  simp only [split_measurement] at h
  cases h1 : matchPattern1 w with
  | some ps1 =>
    rw [h1] at h
    simp only [Option.some.injEq] at h
    subst h
    obtain ⟨d1, a, v, sep1, sep2, suffix, hps, hw, hsep1, hsep2, -⟩ := matchPattern1_decomp h1
    subst hps
    refine ⟨[sep1, sep2], suffix, ?_, rfl, ?_⟩
    · simp only [interleave]
      rw [hw]
      simp
    · intro s hs c hc
      simp only [List.mem_cons, List.not_mem_nil, or_false] at hs
      rcases hs with rfl | rfl
      · have := hsep1 c hc
        simp [isSepCh, this]
      · exact hsep2 c hc
  | none =>
    rw [h1] at h
    obtain ⟨a, v, sep, suffix, hps, hw, hsep, -⟩ := matchPattern2_decomp h
    subst hps
    refine ⟨[sep], suffix, ?_, rfl, ?_⟩
    · simp only [interleave]
      rw [hw]
      simp
    · intro s hs c hc
      simp only [List.mem_singleton] at hs
      subst hs
      exact hsep c hc

/-- C2 witness: a well-behaved one-word line is reproduced exactly. -/
theorem tokenizer_conservation_amended_witness :
    (∀ w ∈ (["d1 2.5 cm".toList] : List Str), good_word w) ∧
    process_line ["d1 2.5 cm".toList] = joinSp ["d1 2.5 cm".toList] :=
  ⟨by decide, tokenizer_conservation_amended.2 ["d1 2.5 cm".toList] (by decide)⟩

/-- C2 counterexample: a word with text after the matched value loses
characters, so the reconstructed row differs from the space-joined
original words. -/
theorem tokenizer_conservation_fails :
    process_line ["d1 2.5 cms".toList] = "d1 2.5 cm".toList ∧
    "d1 2.5 cm".toList ≠ "d1 2.5 cms".toList ∧
    joinSp ["d1 2.5 cms".toList] = "d1 2.5 cms".toList := by
  decide

/-! ### Scorer monotonicity

Adding fragments to a candidate can only add text after the existing
concatenated text, and every fragment text ends with an appended space,
so no pattern occurrence inside the existing text is disturbed: each of
the four counts is monotone under appending fragment texts. -/

theorem getLast?_cons_of_ne_nil {c : Char} {t : Str} (h : t ≠ []) :
    (c :: t).getLast? = t.getLast? := by
  have h2 := List.getLast?_append_of_ne_nil [c] h
  rwa [List.singleton_append] at h2

theorem dropWhile_ne_nil_of_getLast {p : Char → Bool} {s : Str} {x : Char}
    (h : s.getLast? = some x) (hx : p x = false) : s.dropWhile p ≠ [] := by
  intro hnil
  have hall := List.dropWhile_eq_nil_iff.mp hnil
  have hm : x ∈ s := List.mem_of_mem_getLast? h
  have h2 := hall x hm
  simp [h2] at hx

theorem takeWhile_ext {p : Char → Bool} :
    ∀ {s : Str}, s.dropWhile p ≠ [] → ∀ u : Str,
      (s ++ u).takeWhile p = s.takeWhile p ∧ (s ++ u).dropWhile p = s.dropWhile p ++ u := by
  intro s
  induction s with
  | nil => intro h _; exact absurd rfl h
  | cons a t ih =>
    intro h u
    by_cases hp : p a
    · have ht : t.dropWhile p ≠ [] := by
        simpa [List.dropWhile_cons, hp] using h
      obtain ⟨h1, h2⟩ := ih ht u
      refine ⟨?_, ?_⟩
      · simp [List.takeWhile_cons, hp, h1]
      · simp [List.dropWhile_cons, hp, h2]
    · refine ⟨?_, ?_⟩
      · simp [List.takeWhile_cons, hp]
      · simp [List.dropWhile_cons, hp]

theorem getLast?_dropWhile {p : Char → Bool} {s : Str} (h : s.dropWhile p ≠ []) :
    (s.dropWhile p).getLast? = s.getLast? := by
  have h2 := List.getLast?_append_of_ne_nil (s.takeWhile p) h
  rw [List.takeWhile_append_dropWhile p s] at h2
  exact h2.symm

theorem getLast?_drop {s : Str} {k : Nat} (h : s.drop k ≠ []) :
    (s.drop k).getLast? = s.getLast? := by
  have h2 := List.getLast?_append_of_ne_nil (s.take k) h
  rw [List.take_append_drop] at h2
  exact h2.symm

theorem drop_getLast_inv {s : Str} {x : Char} (h : s.getLast? = some x) (k : Nat) :
    s.drop k = [] ∨ (s.drop k).getLast? = some x := by
  by_cases hk : s.drop k = []
  · exact Or.inl hk
  · exact Or.inr ((getLast?_drop hk).trans h)

theorem scanCt_nil (f : Option Char → Str → Option Nat) (fuel : Nat) (prev : Option Char) :
    scanCt f fuel prev [] = 0 := by
  cases fuel <;> rfl

theorem scanCt_fuel (f : Option Char → Str → Option Nat) :
    ∀ fuel1 fuel2 : Nat, ∀ prev : Option Char, ∀ s : Str,
      s.length ≤ fuel1 → s.length ≤ fuel2 →
      scanCt f fuel1 prev s = scanCt f fuel2 prev s := by
  intro fuel1
  induction fuel1 with
  | zero =>
    intro fuel2 prev s h1 _
    have hs : s = [] := List.length_eq_zero.mp (Nat.le_zero.mp h1)
    subst hs
    rw [scanCt_nil, scanCt_nil]
  | succ fuel ih =>
    intro fuel2 prev s h1 h2
    cases s with
    | nil => rw [scanCt_nil, scanCt_nil]
    | cons c rest =>
      cases fuel2 with
      | zero => simp at h2
      | succ fuel2 =>
        cases hf : f prev (c :: rest) with
        | none =>
          simp only [scanCt, hf]
          have hr1 : rest.length ≤ fuel := by simp at h1; omega
          have hr2 : rest.length ≤ fuel2 := by simp at h2; omega
          exact ih fuel2 (some c) rest hr1 hr2
        | some n =>
          simp only [scanCt, hf]
          have hd1 : ((c :: rest).drop (max n 1)).length ≤ fuel := by
            rw [List.length_drop]; simp at h1 ⊢; omega
          have hd2 : ((c :: rest).drop (max n 1)).length ≤ fuel2 := by
            rw [List.length_drop]; simp at h2 ⊢; omega
          rw [ih fuel2 _ _ hd1 hd2]

theorem findSome?_congr {α β : Type} {f g : α → Option β} :
    ∀ {l : List α}, (∀ a ∈ l, f a = g a) → l.findSome? f = l.findSome? g := by
  intro l
  induction l with
  | nil => intro _; rfl
  | cons a t ih =>
    intro h
    rw [List.findSome?_cons, List.findSome?_cons, h a (by simp)]
    cases g a with
    | none => exact ih (fun b hb => h b (by simp [hb]))
    | some b => rfl

theorem isPrefixOf_append_ext {pat s u : Str} (hs : s.getLast? = some ' ')
    (hpat : ∀ c ∈ pat, c ≠ ' ') :
    pat.isPrefixOf (s ++ u) = pat.isPrefixOf s := by
  by_cases h : pat.isPrefixOf s = true
  · rw [h]
    rw [List.isPrefixOf_iff_prefix] at h ⊢
    exact h.trans (List.prefix_append s u)
  · rw [Bool.not_eq_true] at h
    rw [h]
    apply Bool.eq_false_iff.mpr
    intro habs
    rw [List.isPrefixOf_iff_prefix] at habs
    by_cases hlen : pat.length ≤ s.length
    · have h1 : pat = (s ++ u).take pat.length := List.prefix_iff_eq_take.mp habs
      rw [List.take_append_of_le_length hlen] at h1
      have h3 : pat <+: s := h1 ▸ List.take_prefix pat.length s
      rw [← List.isPrefixOf_iff_prefix] at h3
      rw [h3] at h
      exact Bool.true_eq_false.mp h
    · push_neg at hlen
      have h1 : pat = (s ++ u).take pat.length := List.prefix_iff_eq_take.mp habs
      have h2 : pat.take s.length = s := by
        rw [h1, List.take_take, min_eq_left (le_of_lt hlen), List.take_left]
      have h3 : ' ' ∈ s := List.mem_of_mem_getLast? hs
      rw [← h2] at h3
      exact hpat ' ' ((List.take_sublist _ _).subset h3) rfl

theorem unitAtL_append {t un rest : Str} (h : unitAtL t = some (un, rest)) :
    un ++ rest = t ∧ un ≠ [] := by
  cases t with
  | nil => exact Option.noConfusion h
  | cons c t1 =>
    simp only [unitAtL] at h
    repeat' split at h
    all_goals first
      | exact Option.noConfusion h
      | (simp only [Option.some.injEq, Prod.mk.injEq] at h
         obtain ⟨rfl, rfl⟩ := h
         exact ⟨by simp, by simp⟩)

theorem unitAtL_mem {t un rest : Str} (h : unitAtL t = some (un, rest)) :
    ∃ c ∈ t, c = 'm' ∨ c = 'c' := by
  cases t with
  | nil => exact Option.noConfusion h
  | cons c t1 =>
    simp only [unitAtL] at h
    split at h
    next hc => exact ⟨c, by simp, Or.inl hc⟩
    next hc =>
      split at h
      next hc2 => exact ⟨c, by simp, Or.inr hc2⟩
      next => exact Option.noConfusion h

theorem unitAtL_ext {v u : Str} (hne : v ≠ []) (hlast : v.getLast? = some ' ') :
    unitAtL (v ++ u) = (unitAtL v).map (fun p => (p.1, p.2 ++ u)) := by
  cases v with
  | nil => exact absurd rfl hne
  | cons c v1 =>
    simp only [List.cons_append, unitAtL]
    by_cases hc : c = 'm'
    · simp only [if_pos hc]
      cases v1 with
      | nil =>
        exfalso
        have hc' : c = ' ' := by simpa using hlast
        rw [hc'] at hc
        exact absurd hc (by decide)
      | cons c1 v2 =>
        simp only [List.cons_append]
        by_cases hc1 : c1 = 'm' ∨ c1 = 'l'
        · simp only [if_pos hc1, Option.map_some']
        · simp only [if_neg hc1, Option.map_none']
    · by_cases hc2 : c = 'c'
      · simp only [if_neg hc, if_pos hc2]
        cases v1 with
        | nil =>
          exfalso
          have hc' : c = ' ' := by simpa using hlast
          rw [hc'] at hc2
          exact absurd hc2 (by decide)
        | cons c1 v2 =>
          rw [@getLast?_cons_of_ne_nil c (c1 :: v2) (by simp)] at hlast
          simp only [List.cons_append]
          by_cases hc1 : c1 = 'm'
          · simp only [if_pos hc1]
            cases v2 with
            | nil =>
              exfalso
              have hc1' : c1 = ' ' := by simpa using hlast
              rw [hc1'] at hc1
              exact absurd hc1 (by decide)
            | cons c2 v3 =>
              rw [@getLast?_cons_of_ne_nil c1 (c2 :: v3) (by simp)] at hlast
              simp only [List.cons_append]
              by_cases hcar : c2 = '^'
              · simp only [if_pos hcar]
                cases v3 with
                | nil =>
                  exfalso
                  have hc2' : c2 = ' ' := by simpa using hlast
                  rw [hc2'] at hcar
                  exact absurd hcar (by decide)
                | cons c3 v4 =>
                  simp only [List.cons_append]
                  by_cases h3 : c3 = '3'
                  · simp only [if_pos h3, Option.map_some']
                  · simp only [if_neg h3, Option.map_some', List.cons_append]
              · by_cases h33 : c2 = '3'
                · simp only [if_neg hcar, if_pos h33, Option.map_some']
                · simp only [if_neg hcar, if_neg h33, Option.map_some', List.cons_append]
          · simp only [if_neg hc1, Option.map_none']
      · simp only [if_neg hc, if_neg hc2, Option.map_none']

theorem matchP1AtL_decomp {s con rest : Str} (h : matchP1AtL s = some (con, rest)) :
    con ++ rest = s ∧ con ≠ [] := by
  simp only [matchP1AtL] at h
  split at h
  next c0 r2 heq =>
    split at h
    next hdot =>
      split at h
      next => exact Option.noConfusion h
      next hd2 =>
        split at h
        next un rest2 hun =>
          simp only [Option.some.injEq, Prod.mk.injEq] at h
          obtain ⟨rfl, rfl⟩ := h
          obtain ⟨hun1, _⟩ := unitAtL_append hun
          refine ⟨?_, by simp⟩
          rw [List.append_assoc, List.cons_append, List.append_assoc, List.append_assoc,
            hun1, List.takeWhile_append_dropWhile, List.takeWhile_append_dropWhile,
            ← heq, List.takeWhile_append_dropWhile]
        next => exact Option.noConfusion h
    next hdot =>
      split at h
      next => exact Option.noConfusion h
      next hd1 =>
        split at h
        next un rest2 hun =>
          simp only [Option.some.injEq, Prod.mk.injEq] at h
          obtain ⟨rfl, rfl⟩ := h
          obtain ⟨hun1, hun2⟩ := unitAtL_append hun
          refine ⟨?_, ?_⟩
          · rw [List.append_assoc, List.append_assoc, hun1,
              List.takeWhile_append_dropWhile, List.takeWhile_append_dropWhile]
          · intro he
            rw [List.append_eq_nil, List.append_eq_nil] at he
            exact hun2 he.2.2
        next => exact Option.noConfusion h
  next heq =>
    simp only [heq, List.takeWhile_nil, List.dropWhile_nil, unitAtL] at h
    split at h
    · exact Option.noConfusion h
    · exact Option.noConfusion h

theorem matchP1AtL_mem {s con rest : Str} (h : matchP1AtL s = some (con, rest)) :
    ∃ c ∈ s, c = 'm' ∨ c = 'c' := by
  simp only [matchP1AtL] at h
  split at h
  next c0 r2 heq =>
    split at h
    next hdot =>
      split at h
      next => exact Option.noConfusion h
      next =>
        split at h
        next un rest2 hun =>
          obtain ⟨c, hc, hmc⟩ := unitAtL_mem hun
          have h1 : c ∈ r2.dropWhile isDig := (List.dropWhile_sublist _).subset hc
          have h2 : c ∈ r2 := (List.dropWhile_sublist _).subset h1
          have h3 : c ∈ s.dropWhile isDig := by
            rw [heq]; exact List.mem_cons_of_mem _ h2
          exact ⟨c, (List.dropWhile_sublist _).subset h3, hmc⟩
        next => exact Option.noConfusion h
    next hdot =>
      split at h
      next => exact Option.noConfusion h
      next =>
        split at h
        next un rest2 hun =>
          obtain ⟨c, hc, hmc⟩ := unitAtL_mem hun
          have h1 : c ∈ s.dropWhile isDig := (List.dropWhile_sublist _).subset hc
          exact ⟨c, (List.dropWhile_sublist _).subset h1, hmc⟩
        next => exact Option.noConfusion h
  next heq =>
    simp only [heq, List.takeWhile_nil, List.dropWhile_nil, unitAtL] at h
    split at h
    · exact Option.noConfusion h
    · exact Option.noConfusion h

theorem matchP1At_bound {s : Str} {n : Nat} (h : matchP1At s = some n) :
    1 ≤ n ∧ n ≤ s.length := by
  rw [matchP1At, Option.map_eq_some'] at h
  obtain ⟨⟨con, rest⟩, hP, hn⟩ := h
  obtain ⟨hdec, hne⟩ := matchP1AtL_decomp hP
  subst hn
  refine ⟨List.length_pos.mpr hne, ?_⟩
  rw [← hdec, List.length_append]
  simp

theorem countP1_zero : ∀ (fuel : Nat) (prev : Option Char) (s : Str),
    (∀ c ∈ s, c ≠ 'm' ∧ c ≠ 'c') →
    scanCt (fun _ t => matchP1At t) fuel prev s = 0 := by
  intro fuel
  induction fuel with
  | zero => intro prev s _; rfl
  | succ fuel ih =>
    intro prev s hs
    cases s with
    | nil => rfl
    | cons c rest =>
      have hm : matchP1At (c :: rest) = none := by
        cases hM : matchP1At (c :: rest) with
        | none => rfl
        | some n =>
          exfalso
          rw [matchP1At, Option.map_eq_some'] at hM
          obtain ⟨⟨con, r⟩, hP, _⟩ := hM
          obtain ⟨ch, hch, hmc⟩ := matchP1AtL_mem hP
          obtain ⟨hA, hB⟩ := hs ch hch
          rcases hmc with h0 | h0
          · exact hA h0
          · exact hB h0
      simp only [scanCt, hm]
      exact ih (some c) rest (fun ch hch => hs ch (List.mem_cons_of_mem _ hch))

theorem matchP1AtL_ext {s u : Str} (hne : s ≠ []) (hlast : s.getLast? = some ' ') :
    matchP1AtL (s ++ u) = (matchP1AtL s).map (fun p => (p.1, p.2 ++ u)) ∨
    (matchP1AtL s = none ∧ ∀ c ∈ s, c ≠ 'm' ∧ c ≠ 'c') := by
  have hdig : s.dropWhile isDig ≠ [] := dropWhile_ne_nil_of_getLast hlast (by decide)
  obtain ⟨htw, hdw⟩ := takeWhile_ext hdig u
  have hlastd : (s.dropWhile isDig).getLast? = some ' ' := (getLast?_dropWhile hdig).trans hlast
  have hs_eq : s.takeWhile isDig ++ s.dropWhile isDig = s :=
    List.takeWhile_append_dropWhile isDig s
  simp only [matchP1AtL, htw, hdw]
  cases hr1 : s.dropWhile isDig with
  | nil => exact absurd hr1 hdig
  | cons c0 r2 =>
    rw [hr1] at hlastd hs_eq
    simp only [hr1, List.cons_append]
    by_cases hdot : c0 = '.'
    · have hr2ne : r2 ≠ [] := by
        intro h0
        subst h0
        have hc0 : c0 = ' ' := by simpa using hlastd
        rw [hc0] at hdot
        exact absurd hdot (by decide)
      have hlast2 : r2.getLast? = some ' ' := by
        rw [@getLast?_cons_of_ne_nil c0 r2 hr2ne] at hlastd
        exact hlastd
      have hdig2 : r2.dropWhile isDig ≠ [] := dropWhile_ne_nil_of_getLast hlast2 (by decide)
      obtain ⟨htw2, hdw2⟩ := takeWhile_ext hdig2 u
      simp only [if_pos hdot, htw2, hdw2]
      by_cases hd2 : (r2.takeWhile isDig).isEmpty
      · simp only [if_pos hd2, Option.map_none']
        left
        trivial
      · simp only [if_neg hd2]
        have hlast3 : (r2.dropWhile isDig).getLast? = some ' ' :=
          (getLast?_dropWhile hdig2).trans hlast2
        by_cases hsp : (r2.dropWhile isDig).dropWhile isSpc = []
        · right
          refine ⟨by simp [hsp, unitAtL], ?_⟩
          intro c hc
          rw [← hs_eq] at hc
          rcases List.mem_append.mp hc with h1 | h1
          · have hdigc : isDig c := List.mem_takeWhile_imp h1
            constructor <;> (intro h0; rw [h0] at hdigc; exact absurd hdigc (by decide))
          · rcases List.mem_cons.mp h1 with h2 | h2
            · refine ⟨?_, ?_⟩ <;> (rw [h2, hdot]; decide)
            · rw [← List.takeWhile_append_dropWhile isDig r2] at h2
              rcases List.mem_append.mp h2 with h3 | h3
              · have hdigc : isDig c := List.mem_takeWhile_imp h3
                constructor <;> (intro h0; rw [h0] at hdigc; exact absurd hdigc (by decide))
              · have hspc : isSpc c := (List.dropWhile_eq_nil_iff.mp hsp) c h3
                constructor <;> (intro h0; rw [h0] at hspc; exact absurd hspc (by decide))
        · have hlastv : ((r2.dropWhile isDig).dropWhile isSpc).getLast? = some ' ' :=
            (getLast?_dropWhile hsp).trans hlast3
          obtain ⟨htw3, hdw3⟩ := takeWhile_ext hsp u
          simp only [htw3, hdw3, unitAtL_ext hsp hlastv]
          left
          cases hU : unitAtL ((r2.dropWhile isDig).dropWhile isSpc) with
          | none => simp [hU]
          | some p =>
            obtain ⟨un, rest⟩ := p
            simp [hU]
    · simp only [if_neg hdot]
      by_cases hd1 : (s.takeWhile isDig).isEmpty
      · simp only [if_pos hd1, Option.map_none']
        left
        trivial
      · simp only [if_neg hd1]
        by_cases hsp : (c0 :: r2).dropWhile isSpc = []
        · right
          refine ⟨by simp [hsp, unitAtL], ?_⟩
          intro c hc
          rw [← hs_eq] at hc
          rcases List.mem_append.mp hc with h1 | h1
          · have hdigc : isDig c := List.mem_takeWhile_imp h1
            constructor <;> (intro h0; rw [h0] at hdigc; exact absurd hdigc (by decide))
          · have hspc : isSpc c := (List.dropWhile_eq_nil_iff.mp hsp) c h1
            constructor <;> (intro h0; rw [h0] at hspc; exact absurd hspc (by decide))
        · have hlastv : ((c0 :: r2).dropWhile isSpc).getLast? = some ' ' :=
            (getLast?_dropWhile hsp).trans hlastd
          obtain ⟨htwS, hdwS⟩ := takeWhile_ext hsp u
          rw [List.cons_append] at htwS hdwS
          simp only [htwS, hdwS, unitAtL_ext hsp hlastv]
          left
          cases hU : unitAtL ((c0 :: r2).dropWhile isSpc) with
          | none => simp [hU]
          | some p =>
            obtain ⟨un, rest⟩ := p
            simp [hU]

theorem matchP1At_ext {s u : Str} (hne : s ≠ []) (hlast : s.getLast? = some ' ') :
    matchP1At (s ++ u) = matchP1At s ∨
    (matchP1At s = none ∧ ∀ c ∈ s, c ≠ 'm' ∧ c ≠ 'c') := by
  rcases @matchP1AtL_ext s u hne hlast with h | ⟨h1, h2⟩
  · left
    rw [matchP1At, matchP1At, h, Option.map_map]
    rfl
  · right
    refine ⟨?_, h2⟩
    rw [matchP1At, h1]
    rfl

theorem matchP2At_bound {prev : Option Char} {s : Str} {n : Nat}
    (h : matchP2At prev s = some n) : 1 ≤ n ∧ n ≤ s.length := by
  rw [matchP2At] at h
  split at h
  · exact Option.noConfusion h
  · obtain ⟨alt, halt, hf⟩ := List.exists_of_findSome?_eq_some h
    split at hf
    next hcond =>
      simp only [Option.some.injEq] at hf
      subst hf
      rw [Bool.and_eq_true] at hcond
      have hpre : alt <+: s := List.isPrefixOf_iff_prefix.mp hcond.1
      refine ⟨?_, hpre.length_le⟩
      fin_cases halt <;> decide
    next => exact Option.noConfusion hf

theorem matchP2At_ext {s u : Str} (hlast : s.getLast? = some ' ') (prev : Option Char) :
    matchP2At prev (s ++ u) = matchP2At prev s := by
  rw [matchP2At, matchP2At]
  split
  · rfl
  · apply findSome?_congr
    intro alt halt
    have hnsp : ∀ c ∈ alt, c ≠ ' ' := by fin_cases halt <;> decide
    rw [isPrefixOf_append_ext hlast hnsp]
    by_cases hpre : alt.isPrefixOf s = true
    · have hpre' := List.isPrefixOf_iff_prefix.mp hpre
      have hlt : alt.length < s.length := by
        rcases Nat.lt_or_ge alt.length s.length with hL | hL
        · exact hL
        · exfalso
          have hlen : alt.length = s.length := le_antisymm hpre'.length_le hL
          have heq : alt = s := List.IsPrefix.eq_of_length hpre' hlen
          have h3 : ' ' ∈ alt := heq ▸ List.mem_of_mem_getLast? hlast
          exact hnsp ' ' h3 rfl
      have hdrop : (s ++ u).drop alt.length = s.drop alt.length ++ u :=
        List.drop_append_of_le_length (le_of_lt hlt)
      have hne2 : s.drop alt.length ≠ [] := by
        intro h0
        rw [List.drop_eq_nil_iff] at h0
        omega
      have hhead : (s.drop alt.length ++ u).head? = (s.drop alt.length).head? := by
        cases hD : s.drop alt.length with
        | nil => exact absurd hD hne2
        | cons a t => simp
      rw [hdrop, hhead]
    · rw [Bool.not_eq_true] at hpre
      rw [hpre]
      simp

theorem scanCt_append_ge
    (f : Option Char → Str → Option Nat) (u : Str)
    (Hloc : ∀ (prev : Option Char) (s : Str), s ≠ [] → s.getLast? = some ' ' →
        f prev (s ++ u) = f prev s ∨
        (∀ (fuel : Nat) (prev2 : Option Char), scanCt f fuel prev2 s = 0))
    (Hbound : ∀ (prev : Option Char) (s : Str) (n : Nat), f prev s = some n → n ≤ s.length) :
    ∀ (fuel1 fuel2 : Nat) (prev : Option Char) (s : Str),
      s.length ≤ fuel1 → (s ++ u).length ≤ fuel2 →
      (s = [] ∨ s.getLast? = some ' ') →
      scanCt f fuel1 prev s ≤ scanCt f fuel2 prev (s ++ u) := by
  intro fuel1
  induction fuel1 with
  | zero =>
    intro fuel2 prev s h1 _ _
    have hs : s = [] := List.length_eq_zero.mp (Nat.le_zero.mp h1)
    subst hs
    rw [scanCt_nil]
    exact Nat.zero_le _
  | succ fuel ih =>
    intro fuel2 prev s h1 h2 hinv
    cases s with
    | nil =>
      rw [scanCt_nil]
      exact Nat.zero_le _
    | cons c rest =>
      rcases hinv with hinv | hlast
      · exact absurd hinv (by simp)
      cases fuel2 with
      | zero => simp at h2
      | succ f2 =>
        rcases Hloc prev (c :: rest) (by simp) hlast with hstep | hdead
        · rw [List.cons_append] at hstep
          cases hf : f prev (c :: rest) with
          | none =>
            rw [hf] at hstep
            have hL : scanCt f (fuel + 1) prev (c :: rest) = scanCt f fuel (some c) rest := by
              simp only [scanCt, hf]
            have hR : scanCt f (f2 + 1) prev ((c :: rest) ++ u) =
                scanCt f f2 (some c) (rest ++ u) := by
              rw [List.cons_append]
              simp only [scanCt, hstep]
            rw [hL, hR]
            have hrest : rest = [] ∨ rest.getLast? = some ' ' := by
              by_cases hR2 : rest = []
              · exact Or.inl hR2
              · right
                rw [@getLast?_cons_of_ne_nil c rest hR2] at hlast
                exact hlast
            apply ih
            · simp at h1; omega
            · simp at h2 ⊢; omega
            · exact hrest
          | some n =>
            rw [hf] at hstep
            have hn1 : n ≤ (c :: rest).length := Hbound prev _ n hf
            have hkle : max n 1 ≤ (c :: rest).length := by simp at hn1 ⊢; omega
            have htake : (c :: (rest ++ u)).take (max n 1) = (c :: rest).take (max n 1) := by
              rw [← List.cons_append, List.take_append_of_le_length hkle]
            have hdrop : (c :: (rest ++ u)).drop (max n 1) = (c :: rest).drop (max n 1) ++ u := by
              rw [← List.cons_append, List.drop_append_of_le_length hkle]
            have hL : scanCt f (fuel + 1) prev (c :: rest) =
                1 + scanCt f fuel (((c :: rest).take (max n 1)).getLast?)
                  ((c :: rest).drop (max n 1)) := by
              simp only [scanCt, hf]
            have hR : scanCt f (f2 + 1) prev ((c :: rest) ++ u) =
                1 + scanCt f f2 (((c :: rest).take (max n 1)).getLast?)
                  ((c :: rest).drop (max n 1) ++ u) := by
              rw [List.cons_append]
              simp only [scanCt, hstep]
              rw [htake, hdrop]
            rw [hL, hR]
            refine Nat.add_le_add_left ?_ 1
            apply ih
            · rw [List.length_drop]; simp at h1 ⊢; omega
            · rw [List.length_append, List.length_drop]; simp at h2 ⊢; omega
            · exact drop_getLast_inv hlast (max n 1)
        · rw [hdead (fuel + 1) prev]
          exact Nat.zero_le _

theorem countP1_mono (s u : Str) (hinv : s = [] ∨ s.getLast? = some ' ') :
    countP1 s ≤ countP1 (s ++ u) := by
  rw [countP1, countP1]
  exact scanCt_append_ge (fun _ t => matchP1At t) u
    (fun prev t htne htlast =>
      (matchP1At_ext htne htlast).imp (fun h => h)
        (fun hd fuel prev2 => countP1_zero fuel prev2 t hd.2))
    (fun prev t n h => (matchP1At_bound h).2)
    s.length (s ++ u).length none s le_rfl le_rfl hinv

theorem countP2_mono (s u : Str) (hinv : s = [] ∨ s.getLast? = some ' ') :
    countP2 s ≤ countP2 (s ++ u) := by
  rw [countP2, countP2]
  exact scanCt_append_ge matchP2At u
    (fun prev t _ htlast => Or.inl (matchP2At_ext htlast prev))
    (fun prev t n h => (matchP2At_bound h).2)
    s.length (s ++ u).length none s le_rfl le_rfl hinv

theorem countSub_mono (pat : Str) (hpat : ∀ c ∈ pat, c ≠ ' ') (s u : Str)
    (hinv : s = [] ∨ s.getLast? = some ' ') :
    countSub pat s ≤ countSub pat (s ++ u) := by
  rw [countSub, countSub]
  refine scanCt_append_ge _ u ?_ ?_ s.length (s ++ u).length none s le_rfl le_rfl hinv
  · intro prev t _ htlast
    left
    show (if pat.isPrefixOf (t ++ u) then some pat.length else none) = _
    rw [isPrefixOf_append_ext htlast hpat]
  · intro prev t n h
    split at h
    next hc =>
      simp only [Option.some.injEq] at h
      subst h
      exact (List.isPrefixOf_iff_prefix.mp hc).length_le
    next => exact Option.noConfusion h

theorem all_text_of_append (A B : List Str) :
    all_text_of (A ++ B) = all_text_of A ++ all_text_of B := by
  simp [all_text_of]

theorem all_text_inv (A : List Str) :
    all_text_of A = [] ∨ (all_text_of A).getLast? = some ' ' := by
  induction A with
  | nil => exact Or.inl rfl
  | cons t A ih =>
    right
    have he : all_text_of (t :: A) = (lowerS t ++ [' ']) ++ all_text_of A := by
      simp [all_text_of]
    rcases ih with h | h
    · rw [he, h, List.append_nil]
      exact List.getLast?_concat _
    · have hne : all_text_of A ≠ [] := by
        intro h0
        rw [h0] at h
        exact Option.noConfusion h
      rw [he, List.getLast?_append_of_ne_nil _ hne]
      exact h

/-- C8: threshold monotonicity of the measurement scorer: when a candidate
fragment set is extended by additional fragments whose (lowercased) texts
contain the substring c m, the measurement score of the extended set is at
least the score of the original set.  The appended fragments only append
text after the original concatenated text, and since every fragment
contributes a trailing space, no pattern occurrence of the original text is
disturbed. -/
theorem score_monotone (A extra : List Str)
    (h : ∀ t ∈ extra, (['c', 'm'] : Str) <:+: lowerS t) :
    calculate_measurement_score A ≤ calculate_measurement_score (A ++ extra) := by
  have hAB := all_text_of_append A extra
  have hinv := all_text_inv A
  have h1 := countP1_mono (all_text_of A) (all_text_of extra) hinv
  have h2 := countP2_mono (all_text_of A) (all_text_of extra) hinv
  have h3 := countSub_mono ['c', 'm'] (by decide) (all_text_of A) (all_text_of extra) hinv
  have h4 := countSub_mono ['v', 'o', 'l'] (by decide) (all_text_of A) (all_text_of extra) hinv
  simp only [calculate_measurement_score, hAB]
  omega

/-- C8 witness: appending a cm-containing fragment to a concrete candidate
does not lower its score. -/
theorem score_monotone_witness :
    (∀ t ∈ (["2.5cm".toList] : List Str), (['c', 'm'] : Str) <:+: lowerS t) ∧
    calculate_measurement_score ["d1".toList] ≤
      calculate_measurement_score (["d1".toList] ++ ["2.5cm".toList]) :=
  ⟨by decide, score_monotone ["d1".toList] ["2.5cm".toList] (by decide)⟩

/-! ### Order independence of the row reconstruction

With pairwise distinct positions, the line partition does not depend on
the input order.  Key steps: a stable sort's output is determined by the
input multiset together with the relative order of elements with equal
keys (expressed through per-key filters); within one equal-`y` block all
`x` values are distinct, so per-`x` filters of a block have at most one
element and are order-independent. -/

theorem filter_orderedInsert (v : ℤ) (a : Fragment) :
    ∀ M : List Fragment,
      (List.orderedInsert leX a M).filter (fun f => decide (f.x = v)) =
        if a.x = v then a :: M.filter (fun f => decide (f.x = v))
        else M.filter (fun f => decide (f.x = v)) := by
  intro M
  induction M with
  | nil =>
    by_cases hav : a.x = v <;> simp [List.orderedInsert, hav]
  | cons b M ih =>
    rw [List.orderedInsert]
    by_cases hab : leX a b
    · rw [if_pos hab]
      by_cases hav : a.x = v <;> simp [List.filter_cons, hav]
    · rw [if_neg hab]
      by_cases hav : a.x = v
      · have hbv : ¬(b.x = v) := by
          intro h0
          exact hab (le_of_eq (hav.trans h0.symm))
        by_cases hbv2 : b.x = v
        · exact absurd hbv2 hbv
        · simp [List.filter_cons, hbv, ih, hav]
      · by_cases hbv : b.x = v <;> simp [List.filter_cons, hbv, ih, hav]

theorem filter_insertionSort (v : ℤ) :
    ∀ L : List Fragment,
      (L.insertionSort leX).filter (fun f => decide (f.x = v)) =
        L.filter (fun f => decide (f.x = v)) := by
  intro L
  induction L with
  | nil => rfl
  | cons a L ih =>
    simp only [List.insertionSort, filter_orderedInsert, ih, List.filter_cons]
    by_cases hav : a.x = v <;> simp [hav]

theorem sorted_eq_of_filters :
    ∀ (L₁ L₂ : List Fragment), L₁.Perm L₂ → L₁.Sorted leX → L₂.Sorted leX →
      (∀ v : ℤ, L₁.filter (fun f => decide (f.x = v)) =
        L₂.filter (fun f => decide (f.x = v))) →
      L₁ = L₂ := by
  intro L₁
  induction L₁ with
  | nil =>
    intro L₂ hp _ _ _
    exact (hp.symm.eq_nil).symm
  | cons a t₁ ih =>
    intro L₂ hp hs₁ hs₂ hfil
    cases L₂ with
    | nil => exact List.noConfusion hp.eq_nil
    | cons b t₂ =>
      have hab : a = b := by
        by_cases hx : a.x = b.x
        · have hf := hfil a.x
          rw [List.filter_cons, List.filter_cons] at hf
          simp [hx] at hf
          exact hf.1
        · exfalso
          have ha2 : a ∈ b :: t₂ := hp.subset (by simp)
          have hba : leX b a := by
            rcases List.mem_cons.mp ha2 with h0 | h0
            · exact absurd (congrArg Fragment.x h0) hx
            · exact (List.sorted_cons.mp hs₂).1 a h0
          have hb1 : b ∈ a :: t₁ := hp.symm.subset (by simp)
          have hab' : leX a b := by
            rcases List.mem_cons.mp hb1 with h0 | h0
            · exact absurd (congrArg Fragment.x h0.symm) hx
            · exact (List.sorted_cons.mp hs₁).1 b h0
          exact hx (le_antisymm hab' hba)
      subst hab
      have hp' : t₁.Perm t₂ := hp.cons_inv
      have hfil' : ∀ v : ℤ, t₁.filter (fun f => decide (f.x = v)) =
          t₂.filter (fun f => decide (f.x = v)) := by
        intro v
        have hf := hfil v
        rw [List.filter_cons, List.filter_cons] at hf
        by_cases hav : a.x = v
        · simp [hav] at hf
          exact hf
        · simp [hav] at hf
          exact hf
      exact congrArg (List.cons a)
        (ih t₂ hp' (List.sorted_cons.mp hs₁).2 (List.sorted_cons.mp hs₂).2 hfil')

theorem sortX_eq_of_filters {line₁ line₂ : List Fragment} (hp : line₁.Perm line₂)
    (hfil : ∀ v : ℤ, line₁.filter (fun f => decide (f.x = v)) =
      line₂.filter (fun f => decide (f.x = v))) :
    sortX line₁ = sortX line₂ := by
  apply sorted_eq_of_filters
  · exact (sortX_perm line₁).trans (hp.trans (sortX_perm line₂).symm)
  · exact sortX_sorted line₁
  · exact sortX_sorted line₂
  · intro v
    show (line₁.insertionSort leX).filter _ = (line₂.insertionSort leX).filter _
    rw [filter_insertionSort, filter_insertionSort]
    exact hfil v

theorem perm_eq_of_length_le_one {l₁ l₂ : List Fragment} (hp : l₁.Perm l₂)
    (h : l₁.length ≤ 1) : l₁ = l₂ := by
  cases l₁ with
  | nil => exact (hp.symm.eq_nil).symm
  | cons a t =>
    cases t with
    | nil => exact List.singleton_perm.mp hp
    | cons b t' => simp at h

theorem filter_length_le_one {b : List Fragment}
    (hx : b.Pairwise (fun f g => f.x ≠ g.x)) (v : ℤ) :
    (b.filter (fun f => decide (f.x = v))).length ≤ 1 := by
  induction b with
  | nil => simp
  | cons a t ih =>
    rcases List.pairwise_cons.mp hx with ⟨ha, ht⟩
    rw [List.filter_cons]
    by_cases hav : a.x = v
    · have ht0 : t.filter (fun f => decide (f.x = v)) = [] := by
        rw [List.filter_eq_nil_iff]
        intro f hf
        simp only [decide_eq_true_eq]
        intro h0
        exact ha f hf (hav.trans h0.symm)
      simp [hav, ht0]
    · simp only [hav, decide_eq_true_eq, if_neg hav]
      exact ih ht

theorem block_x_pairwise {b : List Fragment} {v : ℤ} (hy : ∀ f ∈ b, f.y = v)
    (hd : b.Pairwise (fun a c => a.x ≠ c.x ∨ a.y ≠ c.y)) :
    b.Pairwise (fun f g => f.x ≠ g.x) := by
  induction b with
  | nil => exact List.Pairwise.nil
  | cons a t ih =>
    rcases List.pairwise_cons.mp hd with ⟨ha, ht⟩
    refine List.pairwise_cons.mpr ⟨?_, ih (fun f hf => hy f (by simp [hf])) ht⟩
    intro g hg
    rcases ha g hg with h0 | h0
    · exact h0
    · exact absurd ((hy a (by simp)).trans (hy g (by simp [hg])).symm) h0

theorem sorted_block_split {v : ℤ} :
    ∀ {s : List Fragment}, s.Sorted leY → (∀ f ∈ s, v ≤ f.y) →
      s.takeWhile (fun f => decide (f.y = v)) = s.filter (fun f => decide (f.y = v)) ∧
      s.dropWhile (fun f => decide (f.y = v)) = s.filter (fun f => !decide (f.y = v)) := by
  intro s
  induction s with
  | nil => intro _ _; exact ⟨rfl, rfl⟩
  | cons e t ih =>
    intro hs hmin
    rcases List.sorted_cons.mp hs with ⟨he, ht⟩
    by_cases hev : e.y = v
    · have hmt : ∀ f ∈ t, v ≤ f.y := fun f hf => hmin f (by simp [hf])
      obtain ⟨ih1, ih2⟩ := ih ht hmt
      constructor
      · rw [List.takeWhile_cons_of_pos (by simp [hev]), List.filter_cons_of_pos (by simp [hev]), ih1]
      · rw [List.dropWhile_cons_of_pos (by simp [hev]), List.filter_cons_of_neg (by simp [hev]), ih2]
    · have hgt : ∀ f ∈ t, f.y ≠ v := by
        intro f hf h0
        have h1 : e.y ≤ f.y := he f hf
        have h2 : v ≤ e.y := hmin e (by simp)
        rw [h0] at h1
        exact hev (le_antisymm h1 h2)
      have hnil : t.filter (fun f => decide (f.y = v)) = [] := by
        rw [List.filter_eq_nil_iff]
        intro f hf
        simp only [decide_eq_true_eq]
        exact hgt f hf
      have hself : t.filter (fun f => !decide (f.y = v)) = t := by
        rw [List.filter_eq_self]
        intro f hf
        simp only [Bool.not_eq_true', decide_eq_false_iff_not]
        exact hgt f hf
      constructor
      · rw [List.takeWhile_cons_of_neg (by simp [hev]), List.filter_cons_of_neg (by simp [hev]),
          hnil]
      · rw [List.dropWhile_cons_of_neg (by simp [hev]), List.filter_cons_of_pos (by simp [hev]),
          hself]

theorem group_go_block (v : ℤ) :
    ∀ b : List Fragment, b ≠ [] → (∀ f ∈ b, f.y = v) →
    ∀ (cur : List Fragment) (lastY : ℤ) (rest : List Fragment),
      (|v - lastY| < same_line_threshold →
        group_go cur lastY (b ++ rest) = group_go (cur ++ b) v rest) ∧
      (¬|v - lastY| < same_line_threshold →
        group_go cur lastY (b ++ rest) = sortX cur :: group_go b v rest) := by
  intro b
  induction b with
  | nil => intro h; exact absurd rfl h
  | cons e b' ih =>
    intro _ hy cur lastY rest
    have hey : e.y = v := hy e (by simp)
    have h00 : |v - v| < same_line_threshold := by
      rw [sub_self, abs_zero]; decide
    by_cases hb' : b' = []
    · subst hb'
      constructor
      · intro hclose
        show group_go cur lastY (e :: rest) = _
        simp only [group_go, hey]
        rw [if_pos hclose]
      · intro hfar
        show group_go cur lastY (e :: rest) = _
        simp only [group_go, hey]
        rw [if_neg hfar]
    · constructor
      · intro hclose
        have h1 : group_go cur lastY ((e :: b') ++ rest) = group_go (cur ++ [e]) v (b' ++ rest) := by
          simp only [List.cons_append, group_go, hey]
          rw [if_pos hclose]
          rfl
        rw [h1, (ih hb' (fun f hf => hy f (by simp [hf])) (cur ++ [e]) v rest).1 h00,
          List.append_assoc, List.singleton_append]
      · intro hfar
        have h1 : group_go cur lastY ((e :: b') ++ rest) =
            sortX cur :: group_go [e] v (b' ++ rest) := by
          simp only [List.cons_append, group_go, hey]
          rw [if_neg hfar]
          rfl
        rw [h1, (ih hb' (fun f hf => hy f (by simp [hf])) [e] v rest).1 h00,
          List.singleton_append]

theorem group_go_perm_eq :
    ∀ (N : Nat) (s₁ s₂ cur₁ cur₂ : List Fragment) (lastY : ℤ),
      s₁.length ≤ N →
      s₁.Perm s₂ → s₁.Sorted leY → s₂.Sorted leY →
      s₁.Pairwise (fun a b => a.x ≠ b.x ∨ a.y ≠ b.y) →
      cur₁.Perm cur₂ →
      (∀ v : ℤ, cur₁.filter (fun f => decide (f.x = v)) =
        cur₂.filter (fun f => decide (f.x = v))) →
      group_go cur₁ lastY s₁ = group_go cur₂ lastY s₂ := by
  intro N
  induction N with
  | zero =>
    intro s₁ s₂ cur₁ cur₂ lastY hlen hp _ _ _ hpc hfc
    have h1 : s₁ = [] := List.length_eq_zero.mp (Nat.le_zero.mp hlen)
    subst h1
    have h2 : s₂ = [] := hp.symm.eq_nil
    subst h2
    show [sortX cur₁] = [sortX cur₂]
    rw [sortX_eq_of_filters hpc hfc]
  | succ N ih =>
    intro s₁ s₂ cur₁ cur₂ lastY hlen hp hs1 hs2 hd hpc hfc
    cases s₁ with
    | nil =>
      have h2 : s₂ = [] := hp.symm.eq_nil
      subst h2
      show [sortX cur₁] = [sortX cur₂]
      rw [sortX_eq_of_filters hpc hfc]
    | cons e₁ t₁ =>
      have hmin1 : ∀ f ∈ e₁ :: t₁, e₁.y ≤ f.y := by
        intro f hf
        rcases List.mem_cons.mp hf with rfl | hf2
        · exact le_refl _
        · exact (List.sorted_cons.mp hs1).1 f hf2
      have hmin2 : ∀ f ∈ s₂, e₁.y ≤ f.y := fun f hf => hmin1 f (hp.symm.subset hf)
      obtain ⟨htb1, hdb1⟩ := sorted_block_split hs1 hmin1
      obtain ⟨htb2, hdb2⟩ := sorted_block_split hs2 hmin2
      have hsplit1 := List.takeWhile_append_dropWhile (fun f => decide (f.y = e₁.y)) (e₁ :: t₁)
      have hsplit2 := List.takeWhile_append_dropWhile (fun f => decide (f.y = e₁.y)) s₂
      have hpb : ((e₁ :: t₁).takeWhile (fun f => decide (f.y = e₁.y))).Perm
          (s₂.takeWhile (fun f => decide (f.y = e₁.y))) := by
        rw [htb1, htb2]
        exact hp.filter _
      have hpr : ((e₁ :: t₁).dropWhile (fun f => decide (f.y = e₁.y))).Perm
          (s₂.dropWhile (fun f => decide (f.y = e₁.y))) := by
        rw [hdb1, hdb2]
        exact hp.filter _
      have hb1c : (e₁ :: t₁).takeWhile (fun f => decide (f.y = e₁.y)) =
          e₁ :: t₁.takeWhile (fun f => decide (f.y = e₁.y)) :=
        List.takeWhile_cons_of_pos (by simp)
      have hb1ne : (e₁ :: t₁).takeWhile (fun f => decide (f.y = e₁.y)) ≠ [] := by
        rw [hb1c]
        simp
      have hb2ne : s₂.takeWhile (fun f => decide (f.y = e₁.y)) ≠ [] := by
        intro h0
        rw [h0] at hpb
        exact hb1ne hpb.eq_nil
      have hyb1 : ∀ f ∈ (e₁ :: t₁).takeWhile (fun f => decide (f.y = e₁.y)), f.y = e₁.y := by
        intro f hf
        have h0 := List.mem_takeWhile_imp hf
        simpa using h0
      have hyb2 : ∀ f ∈ s₂.takeWhile (fun f => decide (f.y = e₁.y)), f.y = e₁.y := by
        intro f hf
        have h0 := List.mem_takeWhile_imp hf
        simpa using h0
      have hdb : ((e₁ :: t₁).takeWhile (fun f => decide (f.y = e₁.y))).Pairwise
          (fun a b => a.x ≠ b.x ∨ a.y ≠ b.y) :=
        hd.sublist (List.takeWhile_sublist _)
      have hx1 := block_x_pairwise hyb1 hdb
      have hfb : ∀ w : ℤ,
          (((e₁ :: t₁).takeWhile (fun f => decide (f.y = e₁.y))).filter
            (fun f => decide (f.x = w))) =
          ((s₂.takeWhile (fun f => decide (f.y = e₁.y))).filter
            (fun f => decide (f.x = w))) := by
        intro w
        exact perm_eq_of_length_le_one (hpb.filter _) (filter_length_le_one hx1 w)
      have hdr : ((e₁ :: t₁).dropWhile (fun f => decide (f.y = e₁.y))).Pairwise
          (fun a b => a.x ≠ b.x ∨ a.y ≠ b.y) :=
        hd.sublist (List.dropWhile_sublist _)
      have hs1' : ((e₁ :: t₁).dropWhile (fun f => decide (f.y = e₁.y))).Sorted leY :=
        hs1.sublist (List.dropWhile_sublist _)
      have hs2' : (s₂.dropWhile (fun f => decide (f.y = e₁.y))).Sorted leY :=
        hs2.sublist (List.dropWhile_sublist _)
      have hlen' : ((e₁ :: t₁).dropWhile (fun f => decide (f.y = e₁.y))).length ≤ N := by
        have hL := congrArg List.length hsplit1
        rw [List.length_append] at hL
        have hposb : 1 ≤ ((e₁ :: t₁).takeWhile (fun f => decide (f.y = e₁.y))).length := by
          rw [hb1c]
          simp
        have hlen2 : t₁.length + 1 ≤ N + 1 := by simpa using hlen
        simp only [List.length_cons] at hL
        omega
      rw [← hsplit1, ← hsplit2]
      by_cases hclose : |e₁.y - lastY| < same_line_threshold
      · rw [(group_go_block e₁.y _ hb1ne hyb1 cur₁ lastY _).1 hclose,
           (group_go_block e₁.y _ hb2ne hyb2 cur₂ lastY _).1 hclose]
        exact ih _ _ _ _ _ hlen' hpr hs1' hs2' hdr (hpc.append hpb)
          (fun w => by rw [List.filter_append, List.filter_append, hfc w, hfb w])
      · rw [(group_go_block e₁.y _ hb1ne hyb1 cur₁ lastY _).2 hclose,
           (group_go_block e₁.y _ hb2ne hyb2 cur₂ lastY _).2 hclose]
        rw [sortX_eq_of_filters hpc hfc]
        exact congrArg _ (ih _ _ _ _ _ hlen' hpr hs1' hs2' hdr hpb hfb)

/-- C9 corrected (amended statement): provided no two distinct fragments of
the input share both coordinates (pairwise distinct positions), the row
reconstruction is order-independent: running it on any permutation of the
fragment list yields the same line partition with the same per-line
left-to-right ordering. -/
theorem row_reconstruction_deterministic_amended (l₁ l₂ : List Fragment)
    (hperm : l₁.Perm l₂)
    (hdist : l₁.Pairwise (fun a b => a.x ≠ b.x ∨ a.y ≠ b.y)) :
    structure_table_lines l₁ = structure_table_lines l₂ := by
  have hsymm : Symmetric (fun a b : Fragment => a.x ≠ b.x ∨ a.y ≠ b.y) := by
    intro a b h
    rcases h with h | h
    · exact Or.inl (Ne.symm h)
    · exact Or.inr (Ne.symm h)
  have hpf : (filter_text_elements l₁).Perm (filter_text_elements l₂) := hperm.filter _
  have hdf : (filter_text_elements l₁).Pairwise (fun a b => a.x ≠ b.x ∨ a.y ≠ b.y) :=
    hdist.sublist (List.filter_sublist _)
  have hp_s : ((filter_text_elements l₁).insertionSort leY).Perm
      ((filter_text_elements l₂).insertionSort leY) :=
    (List.perm_insertionSort leY _).trans (hpf.trans (List.perm_insertionSort leY _).symm)
  have hs1 : ((filter_text_elements l₁).insertionSort leY).Sorted leY :=
    List.sorted_insertionSort leY _
  have hs2 : ((filter_text_elements l₂).insertionSort leY).Sorted leY :=
    List.sorted_insertionSort leY _
  have hd_s : ((filter_text_elements l₁).insertionSort leY).Pairwise
      (fun a b => a.x ≠ b.x ∨ a.y ≠ b.y) :=
    ((List.perm_insertionSort leY _).pairwise_iff (fun {a b} h => hsymm h)).mpr hdf
  simp only [structure_table_lines]
  cases hc1 : (filter_text_elements l₁).insertionSort leY with
  | nil =>
    have h0 : (filter_text_elements l₂).insertionSort leY = [] := by
      rw [hc1] at hp_s
      exact hp_s.symm.eq_nil
    rw [h0]
  | cons e₁ t₁ =>
    cases hc2 : (filter_text_elements l₂).insertionSort leY with
    | nil =>
      rw [hc1, hc2] at hp_s
      exact absurd hp_s.eq_nil (by simp)
    | cons e₂ t₂ =>
      rw [hc1, hc2] at hp_s
      rw [hc1] at hs1 hd_s
      rw [hc2] at hs2
      have hy21 : e₂.y = e₁.y := by
        have h1 : e₁ ∈ e₂ :: t₂ := hp_s.subset (by simp)
        have h2 : e₂ ∈ e₁ :: t₁ := hp_s.symm.subset (by simp)
        have hA : e₂.y ≤ e₁.y := by
          rcases List.mem_cons.mp h1 with h0 | h0
          · exact le_of_eq (congrArg Fragment.y h0.symm)
          · exact (List.sorted_cons.mp hs2).1 e₁ h0
        have hB : e₁.y ≤ e₂.y := by
          rcases List.mem_cons.mp h2 with h0 | h0
          · exact le_of_eq (congrArg Fragment.y h0.symm)
          · exact (List.sorted_cons.mp hs1).1 e₂ h0
        exact le_antisymm hA hB
      simp only [group_lines]
      have hbr1 : group_go ([] : List Fragment) e₁.y (e₁ :: t₁) = group_go [e₁] e₁.y t₁ := by
        simp only [group_go]
        rw [if_pos (by rw [sub_self, abs_zero]; decide), List.nil_append]
      have hbr2 : group_go ([] : List Fragment) e₁.y (e₂ :: t₂) = group_go [e₂] e₂.y t₂ := by
        simp only [group_go]
        rw [hy21, if_pos (by rw [sub_self, abs_zero]; decide), List.nil_append]
      rw [← hbr1, ← hbr2]
      exact group_go_perm_eq (e₁ :: t₁).length _ _ [] [] e₁.y le_rfl hp_s hs1 hs2 hd_s
        (List.Perm.refl []) (fun v => rfl)

/-- C9 amended witness: two input orders of the same distinct-position
fragments produce the same lines. -/
theorem row_reconstruction_deterministic_amended_witness :
    ([⟨"b".toList, 1, 0, 1⟩, ⟨"a".toList, 0, 0, 1⟩] : List Fragment).Perm
      [⟨"a".toList, 0, 0, 1⟩, ⟨"b".toList, 1, 0, 1⟩] ∧
    structure_table_lines [⟨"b".toList, 1, 0, 1⟩, ⟨"a".toList, 0, 0, 1⟩] =
      structure_table_lines [⟨"a".toList, 0, 0, 1⟩, ⟨"b".toList, 1, 0, 1⟩] :=
  ⟨by decide, row_reconstruction_deterministic_amended _ _ (by decide) (by decide)⟩

end CRIUS
